import Mathlib

/-!
Verification development for scripts/fetch_and_update.py: a shallow embedding
of the merge/dedup/filter pipeline, its store handling and its identifier
function, together with theorems about the pipeline claims.

External collaborators (the feed parsing library, the HTTP client, the LLM
endpoint, and the Python standard library date parsers) are modelled as
oracle functions gathered in a structure; everything written in the script
itself is translated definition by definition.
-/

namespace FetchUpdate

/-! ## JSON values

Python objects produced by json.load / json.loads and manipulated by the
script are modelled by an inductive of JSON values.  Numbers are modelled
by rationals (the script never computes with numeric fields; they are only
carried around and compared for truthiness).  Python dicts preserve
insertion order; they are modelled by association lists together with
operations that replicate dict get / setitem / setdefault semantics. -/

inductive JVal where
  | jnull : JVal
  | jbool : Bool → JVal
  | jnum : Rat → JVal
  | jstr : String → JVal
  | jarr : List JVal → JVal
  | jobj : List (String × JVal) → JVal

/-- Python truthiness of a JSON value (None, False, 0, "", [] and the empty
dict are falsy; everything else is truthy). -/
def truthy : JVal → Bool
  | .jnull => false
  | .jbool b => b
  | .jnum q => decide (q ≠ 0)
  | .jstr s => decide (s ≠ "")
  | .jarr l => !l.isEmpty
  | .jobj f => !f.isEmpty

/-- Dict lookup: `d.get(k)`, returning `none` when the key is absent. -/
def dget (d : List (String × JVal)) (k : String) : Option JVal :=
  match d with
  | [] => none
  | (k', v) :: t => if k' = k then some v else dget t k

/-- Dict assignment `d[k] = v`: replaces in place when the key is present
(keeping its position, as Python dicts do), appends otherwise. -/
def dset (d : List (String × JVal)) (k : String) (v : JVal) :
    List (String × JVal) :=
  match d with
  | [] => [(k, v)]
  | (k', v') :: t => if k' = k then (k', v) :: t else (k', v') :: dset t k v

/-- Python `d.setdefault(k, v)`: inserts `(k, v)` at the end only when the
key is absent; a present key keeps its value, even a falsy one. -/
def dsetdefault (d : List (String × JVal)) (k : String) (v : JVal) :
    List (String × JVal) :=
  match dget d k with
  | some _ => d
  | none => d ++ [(k, v)]

/-- `a.get(k)` on a value expected to be a JSON object. -/
def aget (a : JVal) (k : String) : Option JVal :=
  match a with
  | .jobj f => dget f k
  | _ => none

/-! ## Naive/aware datetimes

datetime objects are modelled by their field tuple.  The script only ever
compares timezone-naive datetimes (it strips tzinfo before every
comparison); Python compares naive datetimes by lexicographic comparison of
the (year, month, day, hour, minute, second, microsecond) tuple.  The
offset of an aware datetime is modelled in minutes. -/

structure PyDateTime where
  year : Nat
  month : Nat
  day : Nat
  hour : Nat
  minute : Nat
  second : Nat
  micro : Nat
  tz : Option Int
deriving DecidableEq

/-- `dt.replace(tzinfo=None)`. -/
def stripTz (d : PyDateTime) : PyDateTime := { d with tz := none }

/-- Strict `<` on naive datetimes: Python tuple comparison on
(year, month, day, hour, minute, second, microsecond). -/
def dtLt (a b : PyDateTime) : Bool :=
  if a.year ≠ b.year then a.year < b.year
  else if a.month ≠ b.month then a.month < b.month
  else if a.day ≠ b.day then a.day < b.day
  else if a.hour ≠ b.hour then a.hour < b.hour
  else if a.minute ≠ b.minute then a.minute < b.minute
  else if a.second ≠ b.second then a.second < b.second
  else a.micro < b.micro

/-- Left-pad the decimal representation of `n` with zeros to width `w`
(Python %0wd formatting). -/
def padZ (w : Nat) (n : Nat) : String :=
  let s := toString n
  String.mk (List.replicate (w - s.length) '0') ++ s

/-- `dt.date().isoformat()`: the YYYY-MM-DD form. -/
def dateIso (d : PyDateTime) : String :=
  padZ 4 d.year ++ "-" ++ padZ 2 d.month ++ "-" ++ padZ 2 d.day

/-- The ±HH:MM rendering of a utcoffset of `off` minutes. -/
def tzSuffix (off : Int) : String :=
  (if off < 0 then "-" else "+") ++
    padZ 2 (off.natAbs / 60) ++ ":" ++ padZ 2 (off.natAbs % 60)

/-- `dt.isoformat()`: YYYY-MM-DDTHH:MM:SS, with the microsecond part only
when nonzero and the offset suffix only for aware datetimes. -/
def isoformat (d : PyDateTime) : String :=
  dateIso d ++ "T" ++ padZ 2 d.hour ++ ":" ++ padZ 2 d.minute ++ ":" ++
    padZ 2 d.second ++
    (if d.micro ≠ 0 then "." ++ padZ 6 d.micro else "") ++
    (match d.tz with
     | none => ""
     | some off => tzSuffix off)

/-! ## SHA-1 and uuid5

uuid.uuid5(namespace, name) is fully specified (RFC 4122): it is the SHA-1
digest of the namespace bytes followed by the UTF-8 encoding of the name,
with version and variant bits forced in digest bytes 6 and 8.  The script
uses only the first eight hex digits of the result, i.e. the first four
digest bytes, which the version/variant adjustment does not touch.  SHA-1
is implemented here over lists of byte values (Nat below 256), with 32-bit
words as Nat reduced modulo 2^32. -/

/-- Truncate to a 32-bit word. -/
def w32 (n : Nat) : Nat := n % 4294967296

/-- Rotate a 32-bit word left by `k` bits. -/
def rotl (k x : Nat) : Nat := w32 ((x <<< k) ||| (x >>> (32 - k)))

/-- The UTF-8 encoding of one code point (str.encode in Python). -/
def utf8Char (c : Char) : List Nat :=
  let n := c.toNat
  if n < 128 then [n]
  else if n < 2048 then [192 + n / 64, 128 + n % 64]
  else if n < 65536 then
    [224 + n / 4096, 128 + (n / 64) % 64, 128 + n % 64]
  else
    [240 + n / 262144, 128 + (n / 4096) % 64, 128 + (n / 64) % 64,
      128 + n % 64]

/-- The UTF-8 bytes of a string. -/
def utf8Bytes (s : String) : List Nat := s.toList.flatMap utf8Char

/-- SHA-1 message padding: append 0x80, zeros to 56 mod 64, then the bit
length as eight big-endian bytes. -/
def sha1Pad (msg : List Nat) : List Nat :=
  let l := msg.length
  let z := (119 - l % 64) % 64
  msg ++ [128] ++ List.replicate z 0 ++
    (List.range 8).map (fun i => (8 * l) >>> (8 * (7 - i)) % 256)

/-- Big-endian 32-bit words from a byte list whose length is a multiple
of four. -/
def bytesToWords : List Nat → List Nat
  | b0 :: b1 :: b2 :: b3 :: rest =>
      (((b0 <<< 8 ||| b1) <<< 8 ||| b2) <<< 8 ||| b3) :: bytesToWords rest
  | _ => []

/-- Split a word list into 16-word blocks. -/
def chunk16 : List Nat → List (List Nat)
  | w0 :: w1 :: w2 :: w3 :: w4 :: w5 :: w6 :: w7 :: w8 :: w9 :: w10 :: w11 ::
      w12 :: w13 :: w14 :: w15 :: rest =>
      [w0, w1, w2, w3, w4, w5, w6, w7, w8, w9, w10, w11, w12, w13, w14, w15]
        :: chunk16 rest
  | _ => []

/-- The 80-word SHA-1 message schedule from a 16-word block. -/
def sha1Sched (block : List Nat) : Array Nat :=
  (List.range 64).foldl
    (fun ws _ =>
      ws.push (rotl 1
        ((ws.getD (ws.size - 3) 0) ^^^ (ws.getD (ws.size - 8) 0) ^^^
          (ws.getD (ws.size - 14) 0) ^^^ (ws.getD (ws.size - 16) 0))))
    block.toArray

/-- The SHA-1 round function. -/
def sha1F (t b c d : Nat) : Nat :=
  if t < 20 then (b &&& c) ||| ((b ^^^ 4294967295) &&& d)
  else if t < 40 then b ^^^ c ^^^ d
  else if t < 60 then (b &&& c) ||| (b &&& d) ||| (c &&& d)
  else b ^^^ c ^^^ d

/-- The SHA-1 round constants. -/
def sha1K (t : Nat) : Nat :=
  if t < 20 then 1518500249
  else if t < 40 then 1859775393
  else if t < 60 then 2400959708
  else 3395469782

/-- SHA-1 chaining state. -/
structure SHA1St where
  h0 : Nat
  h1 : Nat
  h2 : Nat
  h3 : Nat
  h4 : Nat

/-- Process one 16-word block. -/
def sha1Block (st : SHA1St) (block : List Nat) : SHA1St :=
  let ws := sha1Sched block
  let r := (List.range 80).foldl
    (fun st5 t =>
      match st5 with
      | (a, b, c, d, e) =>
          (w32 (rotl 5 a + sha1F t b c d + e + ws.getD t 0 + sha1K t),
            a, rotl 30 b, c, d))
    (st.h0, st.h1, st.h2, st.h3, st.h4)
  match r with
  | (a, b, c, d, e) =>
      ⟨w32 (st.h0 + a), w32 (st.h1 + b), w32 (st.h2 + c), w32 (st.h3 + d),
        w32 (st.h4 + e)⟩

/-- The first 32-bit word of the SHA-1 digest of a byte list.  Only the
first four digest bytes are needed for the identifier. -/
def sha1H0 (msg : List Nat) : Nat :=
  ((chunk16 (bytesToWords (sha1Pad msg))).foldl sha1Block
    ⟨1732584193, 4023233417, 2562383102, 271733878, 3285377520⟩).h0

/-- One lowercase hex digit (the default arm is unreachable for inputs
below 16). -/
def hexDigit (n : Nat) : Char :=
  match n with
  | 0 => '0' | 1 => '1' | 2 => '2' | 3 => '3' | 4 => '4' | 5 => '5'
  | 6 => '6' | 7 => '7' | 8 => '8' | 9 => '9' | 10 => 'a' | 11 => 'b'
  | 12 => 'c' | 13 => 'd' | 14 => 'e' | _ => 'f'

/-- The eight-digit lowercase hex rendering of a 32-bit word, most
significant nibble first (uuid.hex[:8] of the digest). -/
def toHex8 (n : Nat) : String :=
  String.mk ((List.range 8).map (fun i => hexDigit ((n >>> ((7 - i) * 4)) &&& 15)))

/-- The bytes of uuid.NAMESPACE_URL (6ba7b811-9dad-11d1-80b4-00c04fd430c8). -/
def nsUrlBytes : List Nat :=
  [107, 167, 184, 17, 157, 173, 17, 209, 128, 180, 0, 192, 79, 212, 48, 200]

/-- `published_dt.isoformat() if published_dt else ""`. -/
def isoOpt : Option PyDateTime → String
  | some d => isoformat d
  | none => ""

/-- make_article_id from the script: concatenate the url with the
isoformat of the published datetime (empty string when absent), and prefix
the first eight hex digits of uuid5(NAMESPACE_URL, base) with "art_". -/
def make_article_id (url : String) (published_dt : Option PyDateTime) :
    String :=
  let base := url ++ isoOpt published_dt
  "art_" ++ toHex8 (sha1H0 (nsUrlBytes ++ utf8Bytes base))

/-! ## External collaborators

The script relies on external capabilities: the two standard-library date
parsers used by parse_date, the HTTP GET used by fetch_article_body, and
the OpenAI call of call_openai_for_article.  Each is a fixed function
(the claims quantify over fixed external-service behaviour); failures are
modelled by `none` / `none`-like results:

* `fromisoformat s`: `datetime.fromisoformat(s)`, `none` when it raises;
* `parsedate_to_datetime s`: `email.utils.parsedate_to_datetime(s)`,
  `none` when it raises;
* `httpGet url`: the body text of a successful `requests.get(url)`,
  `none` on any exception or non-2xx status (raise_for_status);
* `extract meta body`: the parsed JSON object returned by
  call_openai_for_article, `none` when that call raises for any reason
  (transport error, missing braces, unparseable JSON).  A successful
  result is always a JSON object, hence a field list. -/

/-- Metadata handed to the extraction service (the article_meta dict built
in main, with keys title, link, source, published). -/
structure ArticleMeta where
  title : String
  link : String
  source : String
  published : String

/-- One feed entry as the script reads it: entry.get("title", ""),
entry.get("link", ""), entry.get("published", ""), entry.get("updated", "").
An absent field and an empty field are indistinguishable to the script, so
fields are plain strings with "" for absent. -/
structure Entry where
  title : String
  link : String
  published : String
  updated : String

/-- One parsed feed: parsed.feed.get("title", "") and parsed.entries. -/
structure Feed where
  ftitle : String
  entries : List Entry

/-- The external behaviours, fixed for a run. -/
structure Oracles where
  fromisoformat : String → Option PyDateTime
  parsedate_to_datetime : String → Option PyDateTime
  httpGet : String → Option String
  extract : ArticleMeta → String → Option (List (String × JVal))

/-- parse_date from the script: empty string is falsy and yields None;
otherwise try datetime.fromisoformat, and on failure
email.utils.parsedate_to_datetime; on failure of both, None. -/
def parse_date (o : Oracles) (date_str : String) : Option PyDateTime :=
  if date_str = "" then none
  else
    match o.fromisoformat date_str with
    | some d => some d
    | none => o.parsedate_to_datetime date_str

/-- parse_date applied to a value taken from a JSON field, as in the final
filter pass (parse_date(art.get("published_at", ""))).  A missing field
gives "", which parses to None; a non-string value makes both library
parsers raise, which parse_date turns into None. -/
def parse_date_val (o : Oracles) (v : Option JVal) : Option PyDateTime :=
  match v with
  | some (.jstr s) => parse_date o s
  | _ => none

/-- fetch_article_body from the script: empty string for a falsy url, the
response text on success, and empty string on any exception. -/
def fetch_article_body (o : Oracles) (url : String) : String :=
  if url = "" then ""
  else
    match o.httpGet url with
    | some text => text
    | none => ""

/-! ## The merge pipeline (main) -/

/-- The in-memory collection id_to_article: a Python dict keyed by the
article id.  In every run that completes, the keys are strings (ids the
pipeline itself creates are "art_..." strings, and the well-formedness
predicate below restricts stored ids to strings). -/
abbrev IdDict := List (String × JVal)

/-- CUTOFF_DATE = datetime.fromisoformat("2000-01-01"), i.e.
datetime(2000, 1, 1).  The script stores the cutoff in a module constant
whose comment invites tightening it; the pipeline below takes the cutoff
as an argument so that runs under a changed cutoff are expressible, with
this value as the one configured in the source. -/
def CUTOFF_DATE : PyDateTime := ⟨2000, 1, 1, 0, 0, 0, 0, none⟩

/-- The dict comprehension
`{a.get("id"): a for a in existing_articles if a.get("id")}`:
articles with a truthy id keyed by it, later duplicates overwriting
earlier values in place.  Restricted to string ids (see wfStore): a stored
article whose id is a truthy non-string would make the Python dict use a
non-string key, which no "art_..." lookup can ever equal. -/
def buildIdDict (arts : List JVal) : IdDict :=
  arts.foldl
    (fun d a =>
      match aget a "id" with
      | some (.jstr s) => if s = "" then d else dset d s a
      | _ => d)
    []

/-- Key membership in the dict (`article_id in id_to_article`). -/
def hasKey (d : IdDict) (k : String) : Bool :=
  match dget d k with
  | some _ => true
  | none => false

/-- Lines 242-254 of the script: the post-processing of a successful
extraction result.  setdefault then unconditional assignment for id, then
setdefault for url, source, published_at and every schema list/string
field. -/
def reconcile (article_id link source pubdate : String)
    (aj : List (String × JVal)) : List (String × JVal) :=
  let aj := dsetdefault aj "id" (.jstr article_id)
  let aj := dset aj "id" (.jstr article_id)
  let aj := dsetdefault aj "url" (.jstr link)
  let aj := dsetdefault aj "source" (.jstr source)
  let aj := dsetdefault aj "published_at" (.jstr pubdate)
  let aj := dsetdefault aj "summary" (.jstr "")
  let aj := dsetdefault aj "categories" (.jarr [])
  let aj := dsetdefault aj "campaign_types" (.jarr [])
  let aj := dsetdefault aj "demo_tags" (.jarr [])
  let aj := dsetdefault aj "psych_tags" (.jarr [])
  let aj := dsetdefault aj "stakeholders" (.jarr [])
  let aj := dsetdefault aj "outreach_templates" (.jarr [])
  aj

/-- The per-entry body of the feed loop in main: skip on missing link,
unparseable date, below-cutoff date, or already-present id; otherwise
fetch the body (skip when empty), call the extraction service (skip on
failure), post-process and insert into the dict. -/
def processEntry (cutoff : PyDateTime) (o : Oracles) (ftitle : String)
    (d : IdDict) (e : Entry) : IdDict :=
  if e.link = "" then d
  else
    let source := if ftitle = "" then "Unknown" else ftitle
    let published_raw := if e.published = "" then e.updated else e.published
    match parse_date o published_raw with
    | none => d
    | some pd0 =>
      let pd := stripTz pd0
      if dtLt pd cutoff then d
      else
        let article_id := make_article_id e.link (some pd)
        if hasKey d article_id then d
        else
          let body := fetch_article_body o e.link
          if body = "" then d
          else
            match o.extract ⟨e.title, e.link, source, dateIso pd⟩ body with
            | none => d
            | some aj =>
              dset d article_id
                (.jobj (reconcile article_id e.link source (dateIso pd) aj))

/-- The two nested feed loops of main. -/
def ingest (cutoff : PyDateTime) (o : Oracles) (feeds : List Feed)
    (d : IdDict) : IdDict :=
  feeds.foldl (fun d f => f.entries.foldl (processEntry cutoff o f.ftitle) d) d

/-- The final filter pass (lines 262-271): keep an article exactly when
its published_at parses and, with tzinfo stripped, is not before the
cutoff (`pd and pd >= CUTOFF_DATE`). -/
def passCutoff (cutoff : PyDateTime) (o : Oracles) (a : JVal) : Bool :=
  match parse_date_val o (aget a "published_at") with
  | none => false
  | some pd => !dtLt (stripTz pd) cutoff

/-- The sort key `a.get("published_at", "")`.  Every article that
survives the filter has a string published_at (a non-string never
parses), so on the filtered list this is exactly the Python key. -/
def pubKey (a : JVal) : String :=
  match aget a "published_at" with
  | some (.jstr s) => s
  | _ => ""

/-- Lexicographic comparison of code-point lists. -/
def charsLt : List Char → List Char → Bool
  | _, [] => false
  | [], _ :: _ => true
  | a :: as, b :: bs =>
      a.toNat < b.toNat || (a.toNat = b.toNat && charsLt as bs)

/-- Python string comparison: strict lexicographic order on code points. -/
def strLt (a b : String) : Bool := charsLt a.toList b.toList

/-- Insert an element coming later in the original list into an already
descending-sorted list: it goes after every element whose key is not
smaller, which is where a stable descending sort places it. -/
def insertDesc (x : JVal) : List JVal → List JVal
  | [] => [x]
  | h :: t =>
      if strLt (pubKey h) (pubKey x) then x :: h :: t else h :: insertDesc x t

/-- `filtered.sort(key=lambda a: a.get("published_at", ""), reverse=True)`:
Python list.sort is stable, and a stable descending sort by a key is a
unique function of the input list; this insertion sort computes it. -/
def sortByKeyDesc (l : List JVal) : List JVal :=
  l.foldl (fun acc x => insertDesc x acc) []

/-- `data.get("articles", [])` on the loaded top-level document.  A
present non-list value would make the Python run crash when iterated and
indexed (no such run completes); wfStore excludes it. -/
def articlesOf (data : List (String × JVal)) : List JVal :=
  match dget data "articles" with
  | some (.jarr l) => l
  | _ => []

/-- Well-formedness of a loaded document: a run over it completes whatever
the feeds (the "articles" value, when present, is a list of objects) and
its dict of ids behaves like a string-keyed map (a truthy id is a
string).  Every document the pipeline itself saves satisfies this. -/
def wfArticle (a : JVal) : Bool :=
  match a with
  | .jobj f =>
      match dget f "id" with
      | none => true
      | some (.jstr _) => true
      | some v => !truthy v
  | _ => false

/-- See wfArticle. -/
def wfStore (data : List (String × JVal)) : Bool :=
  match dget data "articles" with
  | none => true
  | some (.jarr l) => l.all wfArticle
  | some _ => false

/-- main, from loading the store to the document handed to save_data:
index existing articles by id, ingest every feed, rebuild the list from
the dict, filter by cutoff, sort by published_at descending, and write
the list back into the loaded document (only the "articles" key is
reassigned). -/
def main_run (cutoff : PyDateTime) (o : Oracles) (feeds : List Feed)
    (data : List (String × JVal)) : List (String × JVal) :=
  let existing_articles := articlesOf data
  let id_to_article := buildIdDict existing_articles
  let d1 := ingest cutoff o feeds id_to_article
  let all_articles := d1.map (fun kv => kv.2)
  let filtered := all_articles.filter (passCutoff cutoff o)
  let sorted := sortByKeyDesc filtered
  dset data "articles" (.jarr sorted)

/-! ## The store (load_existing_data / save_data)

save_data serialises the document and load_existing_data parses it back;
for the values the pipeline writes this round trip is the identity, so the
persisted state is modelled by the document value itself (with `none` for
an absent file).  json.load is the standard library parser, external to
the script, modelled as an oracle; `none` stands for a json.JSONDecodeError. -/

/-- load_existing_data: an absent file or a file whose content fails to
parse yields the empty collection; otherwise the parsed document. -/
def load_existing_data (jparse : String → Option JVal)
    (file : Option String) : JVal :=
  match file with
  | none => .jobj [("articles", .jarr [])]
  | some content =>
      match jparse content with
      | some v => v
      | none => .jobj [("articles", .jarr [])]

/-! ## Derived notions used by the statements and proofs -/

/-- The empty collection value `{"articles": []}`. -/
def emptyColl : JVal := .jobj [("articles", .jarr [])]

/-- A lowercase hexadecimal digit. -/
def isHexChar (c : Char) : Bool :=
  (('0' ≤ c) && (c ≤ '9')) || (('a' ≤ c) && (c ≤ 'f'))

/-- Invariant of every binding of the in-memory dict: the value carries
its own key as a nonempty string id. -/
def goodPair (kv : String × JVal) : Prop :=
  aget kv.2 "id" = some (.jstr kv.1) ∧ kv.1 ≠ ""

/-- The keys of a dict, in order. -/
def keysOf (d : IdDict) : List String := d.map Prod.fst

/-- The string id carried by an article value (empty for a missing or
non-string id). -/
def idStr (a : JVal) : String :=
  match aget a "id" with
  | some (.jstr s) => s
  | _ => ""

/-- The part of processEntry that does not depend on the dict: the result
of link, date and cutoff validation, body fetch and extraction for one
entry, as the key/article pair it would insert.  processEntry inserts this
pair exactly when the key is not already present (see processEntry_eq). -/
def attempt (cutoff : PyDateTime) (o : Oracles) (ftitle : String)
    (e : Entry) : Option (String × JVal) :=
  if e.link = "" then none
  else
    let source := if ftitle = "" then "Unknown" else ftitle
    let published_raw := if e.published = "" then e.updated else e.published
    match parse_date o published_raw with
    | none => none
    | some pd0 =>
      let pd := stripTz pd0
      if dtLt pd cutoff then none
      else
        let article_id := make_article_id e.link (some pd)
        let body := fetch_article_body o e.link
        if body = "" then none
        else
          match o.extract ⟨e.title, e.link, source, dateIso pd⟩ body with
          | none => none
          | some aj =>
            some (article_id,
              .jobj (reconcile article_id e.link source (dateIso pd) aj))

/-- Sorted by descending published_at string: no later element has a
strictly larger key. -/
def descSorted (l : List JVal) : Prop :=
  l.Pairwise (fun a b => strLt (pubKey a) (pubKey b) = false)

/-- The feed loops flattened into one list of (feed title, entry) pairs. -/
def flatEntries (feeds : List Feed) : List (String × Entry) :=
  feeds.flatMap (fun f => f.entries.map (fun e => (f.ftitle, e)))

/-- One ingestion step over a flattened (feed title, entry) pair. -/
def stepA (cutoff : PyDateTime) (o : Oracles) (d : IdDict)
    (fe : String × Entry) : IdDict :=
  match attempt cutoff o fe.1 fe.2 with
  | none => d
  | some (k, a) => if hasKey d k then d else d ++ [(k, a)]

/-! ## Concrete instances

Fixed inputs used by counterexamples and witnesses.  The oracle values
below record actual standard-library behaviour (Python 3):

* datetime.fromisoformat("2025-11-05") = datetime(2025, 11, 5);
* datetime.fromisoformat("2025-12-01") = datetime(2025, 12, 1);
* datetime.fromisoformat("1999-01-01") = datetime(1999, 1, 1);
* datetime.fromisoformat raises on "Mon, 01 Jan 2001 00:00:00 +0000";
* email.utils.parsedate_to_datetime("Mon, 01 Jan 2001 00:00:00 +0000") =
  datetime(2001, 1, 1, tzinfo=utc), an aware datetime with offset 0. -/

/-- 2025-11-05T00:00:00, naive. -/
def dt20251105 : PyDateTime := ⟨2025, 11, 5, 0, 0, 0, 0, none⟩

/-- 2025-12-01T00:00:00, naive. -/
def dt20251201 : PyDateTime := ⟨2025, 12, 1, 0, 0, 0, 0, none⟩

/-- 1999-01-01T00:00:00, naive. -/
def dt19990101 : PyDateTime := ⟨1999, 1, 1, 0, 0, 0, 0, none⟩

/-- 2001-01-01T00:00:00+00:00, aware with zero offset. -/
def dt20010101utc : PyDateTime := ⟨2001, 1, 1, 0, 0, 0, 0, some 0⟩

/-- An RFC-2822-style published_at string, as feed software commonly
stores it. -/
def rfcDateStr : String := "Mon, 01 Jan 2001 00:00:00 +0000"

/-- A fixed external behaviour: the ISO parser accepts the three ISO date
strings above, the header-style parser accepts rfcDateStr, the body fetch
succeeds with a fixed page, and extraction succeeds with a minimal object
(only a title). -/
def oA : Oracles where
  fromisoformat s :=
    if s = "2025-11-05" then some dt20251105
    else if s = "2025-12-01" then some dt20251201
    else if s = "1999-01-01" then some dt19990101
    else none
  parsedate_to_datetime s :=
    if s = rfcDateStr then some dt20010101utc else none
  httpGet _ := some "<html>body</html>"
  extract _ _ := some [("title", .jstr "T")]

/-- As oA but the body fetch fails on every url (requests.get raising, or
a non-2xx status). -/
def oNoBody : Oracles where
  fromisoformat s :=
    if s = "2025-11-05" then some dt20251105
    else if s = "2025-12-01" then some dt20251201
    else if s = "1999-01-01" then some dt19990101
    else none
  parsedate_to_datetime s :=
    if s = rfcDateStr then some dt20010101utc else none
  httpGet _ := none
  extract _ _ := some [("title", .jstr "T")]

/-- A feed entry dated 2025-11-05 with a fixed link. -/
def entryA : Entry := ⟨"T", "https://x/a", "2025-11-05", ""⟩

/-- The single feed carrying entryA. -/
def feedA : Feed := ⟨"F", [entryA]⟩

/-- The identifier the pipeline computes for entryA. -/
def idA : String := make_article_id "https://x/a" (some dt20251105)

/-- A store holding one article that carries the identifier of entryA but a
below-cutoff published_at: it masks entryA during ingestion and is then
dropped by the filter pass. -/
def staleStore : List (String × JVal) :=
  [("articles", .jarr [.jobj [("id", .jstr idA),
    ("published_at", .jstr "1999-01-01")]])]

/-- A store whose articles field is an empty list. -/
def emptyStore : List (String × JVal) := [("articles", .jarr [])]

/-- An article dated by an RFC-2822 string (parses to 2001-01-01). -/
def artRfc : JVal :=
  .jobj [("id", .jstr "a"), ("published_at", .jstr rfcDateStr)]

/-- An article dated by an ISO string (parses to 2025-12-01). -/
def artIso : JVal :=
  .jobj [("id", .jstr "b"), ("published_at", .jstr "2025-12-01")]

/-- A store holding artRfc then artIso. -/
def mixedStore : List (String × JVal) :=
  [("articles", .jarr [artRfc, artIso])]

/-! ## Dict lemmas -/

theorem dget_dset_self (d : IdDict) (k : String) (v : JVal) :
    dget (dset d k v) k = some v := by
  induction d with
  | nil => simp [dset, dget]
  | cons hd t ih =>
      by_cases h : hd.1 = k
      · simp [dset, dget, h]
      · simp [dset, dget, h, ih]

theorem dget_dset_ne (d : IdDict) (k' k : String) (v : JVal)
    (h : k' ≠ k) : dget (dset d k' v) k = dget d k := by
  induction d with
  | nil => simp [dset, dget, h]
  | cons hd t ih =>
      by_cases h1 : hd.1 = k'
      · simp [dset, dget, h1, h]
      · simp only [dset, if_neg h1]
        by_cases h2 : hd.1 = k
        · simp [dget, h2]
        · simp [dget, h2, ih]

theorem dget_append (d1 d2 : IdDict) (k : String) :
    dget (d1 ++ d2) k =
      match dget d1 k with
      | some v => some v
      | none => dget d2 k := by
  induction d1 with
  | nil => simp [dget]
  | cons hd t ih =>
      by_cases h : hd.1 = k
      · simp [dget, h]
      · simp [dget, h, ih]

theorem dget_dsetdefault_ne (d : IdDict) (k' k : String) (v : JVal)
    (h : k' ≠ k) : dget (dsetdefault d k' v) k = dget d k := by
  unfold dsetdefault
  cases hk : dget d k' with
  | some w => rfl
  | none =>
      rw [dget_append]
      cases hg : dget d k with
      | some w => rfl
      | none => simp [dget, h]

theorem dget_dsetdefault_none (d : IdDict) (k : String) (v : JVal)
    (h : dget d k = none) : dget (dsetdefault d k v) k = some v := by
  unfold dsetdefault
  rw [h, dget_append, h]
  simp [dget]

theorem dget_dsetdefault_some (d : IdDict) (k : String) (v w : JVal)
    (h : dget d k = some w) : dget (dsetdefault d k v) k = some w := by
  unfold dsetdefault
  rw [h]
  exact h

theorem dset_eq_append (d : IdDict) (k : String) (v : JVal)
    (h : dget d k = none) : dset d k v = d ++ [(k, v)] := by
  induction d with
  | nil => simp [dset]
  | cons hd t ih =>
      by_cases h1 : hd.1 = k
      · simp [dget, h1] at h
      · simp only [dget, if_neg h1] at h
        simp [dset, h1, ih h]

theorem hasKey_true_iff (d : IdDict) (k : String) :
    hasKey d k = true ↔ ∃ v, dget d k = some v := by
  unfold hasKey
  cases h : dget d k <;> simp

theorem hasKey_false_iff (d : IdDict) (k : String) :
    hasKey d k = false ↔ dget d k = none := by
  unfold hasKey
  cases h : dget d k <;> simp

theorem mem_of_dget (d : IdDict) (k : String) (v : JVal)
    (h : dget d k = some v) : (k, v) ∈ d := by
  induction d with
  | nil => simp [dget] at h
  | cons hd t ih =>
      obtain ⟨a, b⟩ := hd
      by_cases h1 : a = k
      · simp only [dget, if_pos h1] at h
        subst h1
        cases h
        exact List.mem_cons_self _ _
      · simp only [dget, if_neg h1] at h
        exact List.mem_cons_of_mem _ (ih h)

theorem dget_of_mem_nodup (d : IdDict) (k : String) (v : JVal)
    (hnd : (keysOf d).Nodup) (h : (k, v) ∈ d) : dget d k = some v := by
  induction d with
  | nil => simp at h
  | cons hd t ih =>
      simp only [keysOf, List.map_cons, List.nodup_cons] at hnd
      rcases List.mem_cons.mp h with h1 | h1
      · cases h1
        simp [dget]
      · have hk : hd.1 ≠ k := by
          intro he
          exact hnd.1 (he ▸ List.mem_map_of_mem Prod.fst h1)
        simp only [dget, if_neg hk]
        exact ih hnd.2 h1

theorem mem_dset (d : IdDict) (k : String) (v : JVal) (kv : String × JVal)
    (h : kv ∈ dset d k v) : kv = (k, v) ∨ kv ∈ d := by
  induction d with
  | nil => simpa [dset] using h
  | cons hd t ih =>
      by_cases h1 : hd.1 = k
      · simp only [dset, if_pos h1] at h
        rcases List.mem_cons.mp h with h2 | h2
        · left
          cases hd
          cases h1
          exact h2
        · right
          exact List.mem_cons_of_mem _ h2
      · simp only [dset, if_neg h1] at h
        rcases List.mem_cons.mp h with h2 | h2
        · right
          exact h2 ▸ List.mem_cons_self _ _
        · rcases ih h2 with h3 | h3
          · exact Or.inl h3
          · exact Or.inr (List.mem_cons_of_mem _ h3)

theorem keysOf_dset (d : IdDict) (k : String) (v : JVal) :
    keysOf (dset d k v) = if k ∈ keysOf d then keysOf d else keysOf d ++ [k] := by
  induction d with
  | nil => simp [dset, keysOf]
  | cons hd t ih =>
      obtain ⟨a, b⟩ := hd
      by_cases h1 : a = k
      · subst h1
        simp [dset, keysOf]
      · have h1' : ¬ k = a := fun hx => h1 hx.symm
        simp only [keysOf, List.map_cons] at ih ⊢
        simp only [dset, if_neg h1, List.map_cons]
        rw [ih]
        by_cases h2 : k ∈ List.map Prod.fst t
        · simp [h2, h1']
        · simp [h2, h1']

theorem keysOf_nodup_dset (d : IdDict) (k : String) (v : JVal)
    (h : (keysOf d).Nodup) : (keysOf (dset d k v)).Nodup := by
  rw [keysOf_dset]
  by_cases h1 : k ∈ keysOf d
  · simpa [h1] using h
  · simpa [h1, List.nodup_append] using h

/-! ## Order facts for the Python string comparison -/

theorem charsLt_irrefl (a : List Char) : charsLt a a = false := by
  induction a with
  | nil => rfl
  | cons x xs ih => simp [charsLt, ih]

theorem charsLt_trans (a b c : List Char) (hab : charsLt a b = true)
    (hbc : charsLt b c = true) : charsLt a c = true := by
  induction a generalizing b c with
  | nil =>
      cases c with
      | nil =>
          cases b with
          | nil => simp [charsLt] at hab
          | cons y ys => simp [charsLt] at hbc
      | cons z zs => simp [charsLt]
  | cons x xs ih =>
      cases b with
      | nil => simp [charsLt] at hab
      | cons y ys =>
          cases c with
          | nil => simp [charsLt] at hbc
          | cons z zs =>
              simp only [charsLt, Bool.or_eq_true, Bool.and_eq_true,
                decide_eq_true_eq] at hab hbc ⊢
              rcases hab with h1 | ⟨h1e, h1r⟩
              · rcases hbc with h2 | ⟨h2e, h2r⟩
                · exact Or.inl (Nat.lt_trans h1 h2)
                · exact Or.inl (h2e ▸ h1)
              · rcases hbc with h2 | ⟨h2e, h2r⟩
                · exact Or.inl (h1e ▸ h2)
                · exact Or.inr ⟨h1e.trans h2e, ih ys zs h1r h2r⟩

theorem strLt_irrefl (a : String) : strLt a a = false :=
  charsLt_irrefl a.toList

theorem strLt_trans (a b c : String) (hab : strLt a b = true)
    (hbc : strLt b c = true) : strLt a c = true :=
  charsLt_trans a.toList b.toList c.toList hab hbc

theorem strLt_asymm (a b : String) (h : strLt a b = true) :
    strLt b a = false := by
  cases hba : strLt b a with
  | false => rfl
  | true =>
      have := strLt_trans a b a h hba
      rw [strLt_irrefl] at this
      exact absurd this (by simp)

/-! ## Sort lemmas -/

theorem mem_insertDesc (x y : JVal) (l : List JVal) :
    y ∈ insertDesc x l ↔ y = x ∨ y ∈ l := by
  induction l with
  | nil => simp [insertDesc]
  | cons h t ih =>
      by_cases hc : strLt (pubKey h) (pubKey x) = true
      · simp [insertDesc, hc]
      · simp only [insertDesc, if_neg hc, List.mem_cons, ih]
        tauto

theorem insertDesc_perm (x : JVal) (l : List JVal) :
    List.Perm (insertDesc x l) (x :: l) := by
  induction l with
  | nil => exact List.Perm.refl _
  | cons h t ih =>
      by_cases hc : strLt (pubKey h) (pubKey x) = true
      · simp [insertDesc, hc]
      · simp only [insertDesc, if_neg hc]
        exact (List.Perm.cons h ih).trans (List.Perm.swap x h t)

theorem sortByKeyDesc_perm (l : List JVal) :
    List.Perm (sortByKeyDesc l) l := by
  suffices h : ∀ (l acc : List JVal),
      List.Perm (l.foldl (fun acc x => insertDesc x acc) acc) (acc ++ l) by
    simpa using h l []
  intro l
  induction l with
  | nil => intro acc; simp
  | cons x t ih =>
      intro acc
      have h1 : List.Perm (t.foldl (fun acc x => insertDesc x acc)
          (insertDesc x acc)) (insertDesc x acc ++ t) := ih _
      have h2 : List.Perm (insertDesc x acc ++ t) ((x :: acc) ++ t) :=
        (insertDesc_perm x acc).append_right t
      have h3 : List.Perm ((x :: acc) ++ t) (acc ++ x :: t) := by
        rw [List.cons_append]
        exact List.perm_middle.symm
      exact (h1.trans h2).trans h3

theorem mem_sortByKeyDesc (y : JVal) (l : List JVal) :
    y ∈ sortByKeyDesc l ↔ y ∈ l :=
  (sortByKeyDesc_perm l).mem_iff

theorem insertDesc_sorted (x : JVal) (l : List JVal) (h : descSorted l) :
    descSorted (insertDesc x l) := by
  induction l with
  | nil => simp [insertDesc, descSorted]
  | cons hd t ih =>
      rcases List.pairwise_cons.mp h with ⟨hhd, ht⟩
      by_cases hc : strLt (pubKey hd) (pubKey x) = true
      · simp only [insertDesc, if_pos hc, descSorted]
        refine List.pairwise_cons.mpr ⟨?_, h⟩
        intro y hy
        rcases List.mem_cons.mp hy with h1 | h1
        · subst h1
          exact strLt_asymm _ _ hc
        · cases hxy : strLt (pubKey x) (pubKey y) with
          | false => rfl
          | true =>
              have := strLt_trans _ _ _ hc hxy
              rw [hhd y h1] at this
              exact absurd this (by simp)
      · have hc' : strLt (pubKey hd) (pubKey x) = false := by
          cases hcc : strLt (pubKey hd) (pubKey x) with
          | false => rfl
          | true => exact absurd hcc hc
        simp only [insertDesc, if_neg hc, descSorted]
        refine List.pairwise_cons.mpr ⟨?_, ih ht⟩
        intro y hy
        rcases (mem_insertDesc x y t).mp hy with h1 | h1
        · subst h1
          exact hc'
        · exact hhd y h1

theorem sortByKeyDesc_sorted (l : List JVal) :
    descSorted (sortByKeyDesc l) := by
  suffices h : ∀ (l acc : List JVal), descSorted acc →
      descSorted (l.foldl (fun acc x => insertDesc x acc) acc) by
    exact h l [] (by simp [descSorted])
  intro l
  induction l with
  | nil => intro acc h; exact h
  | cons x t ih => intro acc h; exact ih _ (insertDesc_sorted x acc h)

theorem insertDesc_of_all (x : JVal) (l : List JVal)
    (h : ∀ y ∈ l, strLt (pubKey y) (pubKey x) = false) :
    insertDesc x l = l ++ [x] := by
  induction l with
  | nil => rfl
  | cons hd t ih =>
      have hc : strLt (pubKey hd) (pubKey x) = false :=
        h hd (List.mem_cons_self _ _)
      simp only [insertDesc, hc, Bool.false_eq_true, if_false,
        List.cons_append, List.cons.injEq, true_and]
      exact ih (fun y hy => h y (List.mem_cons_of_mem _ hy))

theorem sortByKeyDesc_of_sorted (l : List JVal) (h : descSorted l) :
    sortByKeyDesc l = l := by
  suffices hs : ∀ (l acc : List JVal), descSorted (acc ++ l) →
      (l.foldl (fun acc x => insertDesc x acc) acc) = acc ++ l by
    simpa using hs l [] (by simpa using h)
  intro l
  induction l with
  | nil => intro acc _; simp
  | cons x t ih =>
      intro acc hacc
      have hall : ∀ y ∈ acc, strLt (pubKey y) (pubKey x) = false := by
        intro y hy
        exact (List.pairwise_append.mp hacc).2.2 y hy x (List.mem_cons_self _ _)
      have h1 : insertDesc x acc = acc ++ [x] := insertDesc_of_all x acc hall
      have h2 : descSorted ((acc ++ [x]) ++ t) := by
        rw [List.append_assoc, List.singleton_append]
        exact hacc
      calc (x :: t).foldl (fun acc x => insertDesc x acc) acc
            = t.foldl (fun acc x => insertDesc x acc) (insertDesc x acc) := rfl
        _ = t.foldl (fun acc x => insertDesc x acc) (acc ++ [x]) := by rw [h1]
        _ = (acc ++ [x]) ++ t := ih _ h2
        _ = acc ++ x :: t := by
              rw [List.append_assoc, List.singleton_append]

/-! ## C6: store recovery -/

/-- C6: for every state of the persisted file, load_existing_data returns
the empty collection rather than failing when the file is absent or its
content is not valid JSON (whatever the parse behaviour on other inputs);
being a total function of the file state, it never propagates a parse
failure to its caller. -/
theorem load_recovers_missing_or_invalid :
    (∀ jparse, load_existing_data jparse none = emptyColl) ∧
    (∀ jparse content, jparse content = none →
      load_existing_data jparse (some content) = emptyColl) := by
  constructor
  · intro jparse
    rfl
  · intro jparse content h
    simp [load_existing_data, h, emptyColl]

/-- Witness for C6: a missing file and a truncated text both load as the
empty collection. -/
theorem load_recovers_missing_or_invalid_instance :
    load_existing_data (fun _ => none) none = emptyColl ∧
    load_existing_data (fun _ => none) (some "[1, 2") = emptyColl :=
  ⟨load_recovers_missing_or_invalid.1 (fun _ => none),
    load_recovers_missing_or_invalid.2 (fun _ => none) "[1, 2" rfl⟩

/-! ## C10: only the articles key changes -/

/-- C10: a pipeline run reassigns only the "articles" key of the loaded
document; every other top-level key keeps the loaded value in the document
handed to save_data. -/
theorem run_touches_only_articles_key (cutoff : PyDateTime) (o : Oracles)
    (feeds : List Feed) (data : List (String × JVal)) (k : String)
    (h : k ≠ "articles") :
    dget (main_run cutoff o feeds data) k = dget data k := by
  unfold main_run
  exact dget_dset_ne data "articles" k _ (fun hx => h hx.symm)

/-- Witness for C10: an unrelated top-level key survives a run. -/
theorem run_touches_only_articles_key_instance :
    dget (main_run CUTOFF_DATE oA []
      [("version", .jnum 3), ("articles", .jarr [])]) "version" =
      some (.jnum 3) := by
  rw [run_touches_only_articles_key CUTOFF_DATE oA [] _ "version"
    (by decide)]
  rfl

/-! ## C5: the identifier function -/

theorem hexDigit_isHex (n : Nat) : isHexChar (hexDigit n) = true := by
  match n with
  | 0 | 1 | 2 | 3 | 4 | 5 | 6 | 7 | 8 | 9 | 10 | 11 | 12 | 13 | 14 => rfl
  | n + 15 => rfl

/-- C5: the identifier is a pure function of the concatenation of the url
with the canonical string of the published instant (so equal pairs always
yield equal identifiers), and its value is the constant tag "art_"
followed by exactly eight lowercase hex digits derived from the SHA-1
content hash of that concatenation. -/
theorem article_id_function_spec :
    (∀ u1 d1 u2 d2, u1 ++ isoOpt d1 = u2 ++ isoOpt d2 →
      make_article_id u1 d1 = make_article_id u2 d2) ∧
    (∀ u d, ∃ hs : List Char,
      (make_article_id u d).toList = ['a', 'r', 't', '_'] ++ hs ∧
      hs.length = 8 ∧ hs.all isHexChar = true) := by
  constructor
  · intro u1 d1 u2 d2 h
    unfold make_article_id
    rw [h]
  · intro u d
    refine ⟨(List.range 8).map (fun i =>
      hexDigit ((sha1H0 (nsUrlBytes ++ utf8Bytes (u ++ isoOpt d)) >>>
        ((7 - i) * 4)) &&& 15)), rfl, by simp, ?_⟩
    rw [List.all_eq_true]
    intro c hc
    obtain ⟨i, _, hrfl⟩ := List.mem_map.mp hc
    rw [← hrfl]
    exact hexDigit_isHex _

/-- Witness for C5 at a concrete pair. -/
theorem article_id_function_spec_instance :
    make_article_id "https://x/a" (some dt20251105) =
      make_article_id "https://x/a" (some dt20251105) ∧
    (∃ hs : List Char,
      (make_article_id "https://x/a" (some dt20251105)).toList =
        ['a', 'r', 't', '_'] ++ hs ∧ hs.length = 8 ∧
        hs.all isHexChar = true) :=
  ⟨article_id_function_spec.1 "https://x/a" (some dt20251105)
      "https://x/a" (some dt20251105) rfl,
    article_id_function_spec.2 "https://x/a" (some dt20251105)⟩

/-! ## C4: post-processing of the extraction result -/

/-- Counterexample to C4 as stated: the service leaves url present but
blank, and the post-processing keeps the blank value instead of filling in
the locally known link (setdefault only fills absent keys). -/
theorem blank_url_not_filled_cex :
    dget (reconcile "art_x" "https://x/a" "F" "2025-11-05"
      [("url", .jstr "")]) "url" = some (.jstr "") ∧
    some (JVal.jstr "") ≠ some (JVal.jstr "https://x/a") :=
  ⟨rfl, by simp⟩

/-- C4 amended: the post-processing overwrites id unconditionally with
the locally computed identifier, and for url, source, published_at and
every schema field it keeps the value the service supplied when the key is
present (even when blank) and fills the local metadata or the typed empty
default only when the key is absent. -/
theorem reconcile_post_spec (aid link src pub : String)
    (aj : List (String × JVal)) :
    dget (reconcile aid link src pub aj) "id" = some (.jstr aid) ∧
    dget (reconcile aid link src pub aj) "url" =
      some ((dget aj "url").getD (.jstr link)) ∧
    dget (reconcile aid link src pub aj) "source" =
      some ((dget aj "source").getD (.jstr src)) ∧
    dget (reconcile aid link src pub aj) "published_at" =
      some ((dget aj "published_at").getD (.jstr pub)) ∧
    dget (reconcile aid link src pub aj) "summary" =
      some ((dget aj "summary").getD (.jstr "")) ∧
    dget (reconcile aid link src pub aj) "categories" =
      some ((dget aj "categories").getD (.jarr [])) ∧
    dget (reconcile aid link src pub aj) "campaign_types" =
      some ((dget aj "campaign_types").getD (.jarr [])) ∧
    dget (reconcile aid link src pub aj) "demo_tags" =
      some ((dget aj "demo_tags").getD (.jarr [])) ∧
    dget (reconcile aid link src pub aj) "psych_tags" =
      some ((dget aj "psych_tags").getD (.jarr [])) ∧
    dget (reconcile aid link src pub aj) "stakeholders" =
      some ((dget aj "stakeholders").getD (.jarr [])) ∧
    dget (reconcile aid link src pub aj) "outreach_templates" =
      some ((dget aj "outreach_templates").getD (.jarr [])) := by
  refine ⟨?_, ?_, ?_, ?_, ?_, ?_, ?_, ?_, ?_, ?_, ?_⟩
  · simp [reconcile, dget_dsetdefault_ne, dget_dset_self, dget_dset_ne]
  · cases hk : dget aj "url" with
    | none => simp [reconcile, dget_dsetdefault_ne, dget_dsetdefault_none,
        dget_dsetdefault_some, dget_dset_ne, hk]
    | some v => simp [reconcile, dget_dsetdefault_ne, dget_dsetdefault_none,
        dget_dsetdefault_some, dget_dset_ne, hk]
  · cases hk : dget aj "source" with
    | none => simp [reconcile, dget_dsetdefault_ne, dget_dsetdefault_none,
        dget_dsetdefault_some, dget_dset_ne, hk]
    | some v => simp [reconcile, dget_dsetdefault_ne, dget_dsetdefault_none,
        dget_dsetdefault_some, dget_dset_ne, hk]
  · cases hk : dget aj "published_at" with
    | none => simp [reconcile, dget_dsetdefault_ne, dget_dsetdefault_none,
        dget_dsetdefault_some, dget_dset_ne, hk]
    | some v => simp [reconcile, dget_dsetdefault_ne, dget_dsetdefault_none,
        dget_dsetdefault_some, dget_dset_ne, hk]
  · cases hk : dget aj "summary" with
    | none => simp [reconcile, dget_dsetdefault_ne, dget_dsetdefault_none,
        dget_dsetdefault_some, dget_dset_ne, hk]
    | some v => simp [reconcile, dget_dsetdefault_ne, dget_dsetdefault_none,
        dget_dsetdefault_some, dget_dset_ne, hk]
  · cases hk : dget aj "categories" with
    | none => simp [reconcile, dget_dsetdefault_ne, dget_dsetdefault_none,
        dget_dsetdefault_some, dget_dset_ne, hk]
    | some v => simp [reconcile, dget_dsetdefault_ne, dget_dsetdefault_none,
        dget_dsetdefault_some, dget_dset_ne, hk]
  · cases hk : dget aj "campaign_types" with
    | none => simp [reconcile, dget_dsetdefault_ne, dget_dsetdefault_none,
        dget_dsetdefault_some, dget_dset_ne, hk]
    | some v => simp [reconcile, dget_dsetdefault_ne, dget_dsetdefault_none,
        dget_dsetdefault_some, dget_dset_ne, hk]
  · cases hk : dget aj "demo_tags" with
    | none => simp [reconcile, dget_dsetdefault_ne, dget_dsetdefault_none,
        dget_dsetdefault_some, dget_dset_ne, hk]
    | some v => simp [reconcile, dget_dsetdefault_ne, dget_dsetdefault_none,
        dget_dsetdefault_some, dget_dset_ne, hk]
  · cases hk : dget aj "psych_tags" with
    | none => simp [reconcile, dget_dsetdefault_ne, dget_dsetdefault_none,
        dget_dsetdefault_some, dget_dset_ne, hk]
    | some v => simp [reconcile, dget_dsetdefault_ne, dget_dsetdefault_none,
        dget_dsetdefault_some, dget_dset_ne, hk]
  · cases hk : dget aj "stakeholders" with
    | none => simp [reconcile, dget_dsetdefault_ne, dget_dsetdefault_none,
        dget_dsetdefault_some, dget_dset_ne, hk]
    | some v => simp [reconcile, dget_dsetdefault_ne, dget_dsetdefault_none,
        dget_dsetdefault_some, dget_dset_ne, hk]
  · cases hk : dget aj "outreach_templates" with
    | none => simp [reconcile, dget_dsetdefault_ne, dget_dsetdefault_none,
        dget_dsetdefault_some, dget_dset_ne, hk]
    | some v => simp [reconcile, dget_dsetdefault_ne, dget_dsetdefault_none,
        dget_dsetdefault_some, dget_dset_ne, hk]

/-! ## C3: empty body handling -/

/-- Counterexample to C3 as stated: with an extraction service that
succeeds on every input (first conjunct), an entry whose body fetch fails
is nevertheless absent from the saved collection — the pipeline abandons
the entry instead of invoking extraction with an empty body. -/
theorem empty_body_entry_dropped_cex :
    (∀ m b, (oNoBody.extract m b).isSome = true) ∧
    articlesOf (main_run CUTOFF_DATE oNoBody [feedA] emptyStore) = [] :=
  ⟨fun _ _ => rfl, rfl⟩

/-- C3 amended: a failed or empty body fetch causes the entry to be
skipped for this run, whatever the dict state and whatever the extraction
service would have answered; the per-entry step leaves the collection
unchanged. -/
theorem empty_body_skips_entry (cutoff : PyDateTime) (o : Oracles)
    (ftitle : String) (d : IdDict) (e : Entry)
    (h : fetch_article_body o e.link = "") :
    processEntry cutoff o ftitle d e = d := by
  unfold processEntry
  by_cases hl : e.link = ""
  · rw [if_pos hl]
  · rw [if_neg hl]
    dsimp only
    cases hp : parse_date o (if e.published = "" then e.updated else e.published) with
    | none => rfl
    | some pd0 =>
        dsimp only
        by_cases hcut : dtLt (stripTz pd0) cutoff = true
        · rw [if_pos hcut]
        · rw [if_neg hcut]
          by_cases hk : hasKey d (make_article_id e.link (some (stripTz pd0))) = true
          · rw [if_pos hk]
          · rw [if_neg hk, h]
            simp

/-- Witness for C3 amended: the concrete entry is dropped when the body
fetch fails. -/
theorem empty_body_skips_entry_instance :
    processEntry CUTOFF_DATE oNoBody "F" [] entryA = [] :=
  empty_body_skips_entry CUTOFF_DATE oNoBody "F" [] entryA rfl

/-! ## Pipeline-level lemmas -/

theorem dset_dset_self (d : IdDict) (k : String) (v w : JVal) :
    dset (dset d k v) k w = dset d k w := by
  induction d with
  | nil => simp [dset]
  | cons hd t ih =>
      by_cases h1 : hd.1 = k
      · simp [dset, h1]
      · simp [dset, h1, ih]

theorem dget_none_iff (d : IdDict) (k : String) :
    dget d k = none ↔ k ∉ keysOf d := by
  induction d with
  | nil => simp [dget, keysOf]
  | cons hd t ih =>
      by_cases h1 : hd.1 = k
      · subst h1
        simp [dget, keysOf]
      · have h1' : ¬ k = hd.1 := fun hx => h1 hx.symm
        simp [dget, keysOf, h1, h1', ih]

theorem dget_reconcile_id (aid link src pub : String)
    (aj : List (String × JVal)) :
    dget (reconcile aid link src pub aj) "id" = some (.jstr aid) := by
  simp [reconcile, dget_dsetdefault_ne, dget_dset_self, dget_dset_ne]

theorem make_article_id_ne_empty (u : String) (pd : Option PyDateTime) :
    make_article_id u pd ≠ "" := by
  unfold make_article_id
  intro h
  have h2 := congrArg String.length h
  rw [String.length_append] at h2
  have h3 : ("art_".length : Nat) = 4 := rfl
  have h4 : ("".length : Nat) = 0 := rfl
  omega

theorem processEntry_eq (cutoff : PyDateTime) (o : Oracles) (ft : String)
    (d : IdDict) (e : Entry) :
    processEntry cutoff o ft d e = stepA cutoff o d (ft, e) := by
  unfold processEntry stepA attempt
  by_cases hl : e.link = ""
  · simp [hl]
  · simp only [if_neg hl]
    cases hp : parse_date o (if e.published = "" then e.updated else e.published) with
    | none => rfl
    | some pd0 =>
        dsimp only
        by_cases hcut : dtLt (stripTz pd0) cutoff = true
        · simp [hcut]
        · simp only [if_neg hcut, Bool.false_eq_true, if_false]
          by_cases hb : fetch_article_body o e.link = ""
          · simp [hb]
          · simp only [if_neg hb]
            cases hx : o.extract
                ⟨e.title, e.link, if ft = "" then "Unknown" else ft,
                  dateIso (stripTz pd0)⟩ (fetch_article_body o e.link) with
            | none => simp [hx]
            | some aj =>
                simp only [hx]
                by_cases hk : hasKey d (make_article_id e.link
                    (some (stripTz pd0))) = true
                · simp [hk]
                · have hnone : dget d (make_article_id e.link
                      (some (stripTz pd0))) = none :=
                    (hasKey_false_iff _ _).mp (by simpa using hk)
                  simp [hk, dset_eq_append _ _ _ hnone]

theorem ingest_eq (cutoff : PyDateTime) (o : Oracles) (feeds : List Feed)
    (d : IdDict) :
    ingest cutoff o feeds d = (flatEntries feeds).foldl (stepA cutoff o) d := by
  induction feeds generalizing d with
  | nil => rfl
  | cons f fs ih =>
      show (f.entries.foldl (processEntry cutoff o f.ftitle) d
          |> (fun d => fs.foldl (fun d g => g.entries.foldl
              (processEntry cutoff o g.ftitle) d) d)) = _
      have h1 : f.entries.foldl (processEntry cutoff o f.ftitle) d =
          (f.entries.map (fun e => (f.ftitle, e))).foldl (stepA cutoff o) d := by
        rw [List.foldl_map]
        have : (fun d e => stepA cutoff o d (f.ftitle, e)) =
            processEntry cutoff o f.ftitle := by
          funext d e
          exact (processEntry_eq cutoff o f.ftitle d e).symm
        rw [this]
      show fs.foldl (fun d g => g.entries.foldl
          (processEntry cutoff o g.ftitle) d)
          (f.entries.foldl (processEntry cutoff o f.ftitle) d) = _
      rw [show ingest cutoff o fs = fs.foldl (fun d g => g.entries.foldl
          (processEntry cutoff o g.ftitle) d) from rfl] at ih
      rw [h1, flatEntries, List.flatMap_cons, List.foldl_append]
      exact ih _

theorem stepA_cases (cutoff : PyDateTime) (o : Oracles) (d : IdDict)
    (fe : String × Entry) :
    stepA cutoff o d fe = d ∨
    ∃ k a, attempt cutoff o fe.1 fe.2 = some (k, a) ∧
      hasKey d k = false ∧ stepA cutoff o d fe = d ++ [(k, a)] := by
  unfold stepA
  cases hat : attempt cutoff o fe.1 fe.2 with
  | none => exact Or.inl rfl
  | some ka =>
      obtain ⟨k, a⟩ := ka
      by_cases hk : hasKey d k = true
      · simp [hk]
      · right
        refine ⟨k, a, rfl, by simpa using hk, ?_⟩
        simp [hk]

theorem foldl_stepA_append (cutoff : PyDateTime) (o : Oracles) :
    ∀ (L : List (String × Entry)) (d : IdDict),
    ∃ m, L.foldl (stepA cutoff o) d = d ++ m := by
  intro L
  induction L with
  | nil => exact fun d => ⟨[], by simp⟩
  | cons fe t ih =>
      intro d
      rcases stepA_cases cutoff o d fe with h | ⟨k, a, _, _, h⟩
      · obtain ⟨m, hm⟩ := ih (stepA cutoff o d fe)
        exact ⟨m, by rw [List.foldl_cons, hm, h]⟩
      · obtain ⟨m, hm⟩ := ih (stepA cutoff o d fe)
        refine ⟨[(k, a)] ++ m, ?_⟩
        rw [List.foldl_cons, hm, h, List.append_assoc]

theorem dget_stepA_mono (cutoff : PyDateTime) (o : Oracles) (d : IdDict)
    (fe : String × Entry) (k : String) (v : JVal)
    (h : dget d k = some v) :
    dget (stepA cutoff o d fe) k = some v := by
  rcases stepA_cases cutoff o d fe with h1 | ⟨k0, a, _, _, h1⟩
  · rw [h1]
    exact h
  · rw [h1, dget_append, h]

theorem dget_foldl_stepA_mono (cutoff : PyDateTime) (o : Oracles) :
    ∀ (L : List (String × Entry)) (d : IdDict) (k : String) (v : JVal),
    dget d k = some v → dget (L.foldl (stepA cutoff o) d) k = some v := by
  intro L
  induction L with
  | nil => exact fun d k v h => h
  | cons fe t ih =>
      intro d k v h
      exact ih _ k v (dget_stepA_mono cutoff o d fe k v h)

theorem attempt_good (cutoff : PyDateTime) (o : Oracles) (ft : String)
    (e : Entry) (k : String) (a : JVal)
    (h : attempt cutoff o ft e = some (k, a)) : goodPair (k, a) := by
  unfold attempt at h
  by_cases hl : e.link = ""
  · rw [if_pos hl] at h
    cases h
  · rw [if_neg hl] at h
    dsimp only at h
    cases hp : parse_date o (if e.published = "" then e.updated else e.published) with
    | none => rw [hp] at h; cases h
    | some pd0 =>
        rw [hp] at h
        dsimp only at h
        by_cases hcut : dtLt (stripTz pd0) cutoff = true
        · rw [if_pos hcut] at h
          cases h
        · rw [if_neg hcut] at h
          by_cases hb : fetch_article_body o e.link = ""
          · rw [if_pos hb] at h
            cases h
          · rw [if_neg hb] at h
            cases hx : o.extract
                ⟨e.title, e.link, if ft = "" then "Unknown" else ft,
                  dateIso (stripTz pd0)⟩ (fetch_article_body o e.link) with
            | none => rw [hx] at h; cases h
            | some aj =>
                rw [hx] at h
                injection h with h2
                injection h2 with hk ha
                subst hk
                subst ha
                constructor
                · exact dget_reconcile_id _ _ _ _ _
                · exact make_article_id_ne_empty _ _

theorem goodPair_stepA (cutoff : PyDateTime) (o : Oracles) (d : IdDict)
    (fe : String × Entry) (hg : ∀ kv ∈ d, goodPair kv) :
    ∀ kv ∈ stepA cutoff o d fe, goodPair kv := by
  rcases stepA_cases cutoff o d fe with h1 | ⟨k0, a, hat, _, h1⟩
  · rw [h1]
    exact hg
  · rw [h1]
    intro kv hkv
    rcases List.mem_append.mp hkv with h2 | h2
    · exact hg kv h2
    · rcases List.mem_singleton.mp h2 with rfl
      exact attempt_good cutoff o fe.1 fe.2 k0 a hat

theorem goodPair_foldl_stepA (cutoff : PyDateTime) (o : Oracles) :
    ∀ (L : List (String × Entry)) (d : IdDict),
    (∀ kv ∈ d, goodPair kv) →
    ∀ kv ∈ L.foldl (stepA cutoff o) d, goodPair kv := by
  intro L
  induction L with
  | nil => exact fun d h => h
  | cons fe t ih =>
      intro d h
      exact ih _ (goodPair_stepA cutoff o d fe h)

theorem nodup_stepA (cutoff : PyDateTime) (o : Oracles) (d : IdDict)
    (fe : String × Entry) (hn : (keysOf d).Nodup) :
    (keysOf (stepA cutoff o d fe)).Nodup := by
  rcases stepA_cases cutoff o d fe with h1 | ⟨k0, a, _, hk, h1⟩
  · rw [h1]
    exact hn
  · rw [h1]
    have hnot : k0 ∉ keysOf d :=
      (dget_none_iff d k0).mp ((hasKey_false_iff d k0).mp hk)
    simp only [keysOf, List.map_append]
    rw [List.nodup_append]
    exact ⟨hn, List.nodup_singleton _, by simpa [keysOf] using hnot⟩

theorem nodup_foldl_stepA (cutoff : PyDateTime) (o : Oracles) :
    ∀ (L : List (String × Entry)) (d : IdDict),
    (keysOf d).Nodup → (keysOf (L.foldl (stepA cutoff o) d)).Nodup := by
  intro L
  induction L with
  | nil => exact fun d h => h
  | cons fe t ih =>
      intro d h
      exact ih _ (nodup_stepA cutoff o d fe h)

/-! ## buildIdDict lemmas -/

theorem buildStep_cases (d : IdDict) (a : JVal) :
    (match aget a "id" with
      | some (.jstr s) => if s = "" then d else dset d s a
      | _ => d) = d ∨
    ∃ s, aget a "id" = some (.jstr s) ∧ s ≠ "" ∧
      (match aget a "id" with
        | some (.jstr s) => if s = "" then d else dset d s a
        | _ => d) = dset d s a := by
  cases hid : aget a "id" with
  | none => exact Or.inl rfl
  | some v =>
      cases v with
      | jstr s =>
          by_cases hs : s = ""
          · left
            show (if s = "" then d else dset d s a) = d
            rw [if_pos hs]
          · right
            refine ⟨s, rfl, hs, ?_⟩
            show (if s = "" then d else dset d s a) = dset d s a
            rw [if_neg hs]
      | jnull => exact Or.inl rfl
      | jbool b => exact Or.inl rfl
      | jnum q => exact Or.inl rfl
      | jarr xs => exact Or.inl rfl
      | jobj f => exact Or.inl rfl

theorem buildIdDict_aux_good (l : List JVal) :
    ∀ (acc : IdDict), (∀ kv ∈ acc, goodPair kv) →
    ∀ kv ∈ l.foldl
      (fun d a =>
        match aget a "id" with
        | some (.jstr s) => if s = "" then d else dset d s a
        | _ => d) acc, goodPair kv := by
  induction l with
  | nil => exact fun acc h => h
  | cons a t ih =>
      intro acc hacc
      rw [List.foldl_cons]
      refine ih _ ?_
      intro kv hkv
      rcases buildStep_cases acc a with h1 | ⟨s, hid, hs, h1⟩ <;>
        rw [h1] at hkv
      · exact hacc kv hkv
      · rcases mem_dset acc s a kv hkv with h2 | h2
        · subst h2
          exact ⟨hid, hs⟩
        · exact hacc kv h2

theorem buildIdDict_good (l : List JVal) :
    ∀ kv ∈ buildIdDict l, goodPair kv :=
  buildIdDict_aux_good l [] (by simp)

theorem buildIdDict_aux_nodup (l : List JVal) :
    ∀ (acc : IdDict), (keysOf acc).Nodup →
    (keysOf (l.foldl
      (fun d a =>
        match aget a "id" with
        | some (.jstr s) => if s = "" then d else dset d s a
        | _ => d) acc)).Nodup := by
  induction l with
  | nil => exact fun acc h => h
  | cons a t ih =>
      intro acc hacc
      rw [List.foldl_cons]
      refine ih _ ?_
      rcases buildStep_cases acc a with h1 | ⟨s, _, _, h1⟩ <;> rw [h1]
      · exact hacc
      · exact keysOf_nodup_dset acc s a hacc

theorem buildIdDict_nodup (l : List JVal) :
    (keysOf (buildIdDict l)).Nodup :=
  buildIdDict_aux_nodup l [] (by simp [keysOf])

theorem mem_values_buildIdDict (l : List JVal) :
    ∀ (t : List JVal) (acc : IdDict), (∀ b ∈ t, b ∈ l) →
    (∀ kv ∈ acc, kv.2 ∈ l) →
    ∀ kv ∈ t.foldl
      (fun d a =>
        match aget a "id" with
        | some (.jstr s) => if s = "" then d else dset d s a
        | _ => d) acc, kv.2 ∈ l := by
  intro t
  induction t with
  | nil => exact fun acc _ h => h
  | cons a t ih =>
      intro acc hsub hacc
      rw [List.foldl_cons]
      refine ih _ (fun b hb => hsub b (List.mem_cons_of_mem _ hb)) ?_
      intro kv hkv
      rcases buildStep_cases acc a with h1 | ⟨s, _, _, h1⟩ <;>
        rw [h1] at hkv
      · exact hacc kv hkv
      · rcases mem_dset acc s a kv hkv with h2 | h2
        · subst h2
          exact hsub a (List.mem_cons_self _ _)
        · exact hacc kv h2

theorem buildIdDict_values_sub (l : List JVal) :
    ∀ kv ∈ buildIdDict l, kv.2 ∈ l :=
  mem_values_buildIdDict l l [] (fun b hb => hb) (by simp)

/-- What the saved articles list is, by construction. -/
theorem articlesOf_main_run (cutoff : PyDateTime) (o : Oracles)
    (feeds : List Feed) (data : List (String × JVal)) :
    articlesOf (main_run cutoff o feeds data) =
      sortByKeyDesc
        (((ingest cutoff o feeds (buildIdDict (articlesOf data))).map
          (fun kv => kv.2)).filter (passCutoff cutoff o)) := by
  unfold main_run articlesOf
  rw [dget_dset_self]

/-! ## C7: sort order -/

/-- Counterexample to the agreement part of C7: a completed run whose saved
list places an article that parses to 2001-01-01 before one that parses
to 2025-12-01 — the raw-string descending sort key does not agree with
the parsed-instant semantics the cutoff filter uses. -/
theorem sort_key_disagrees_with_cutoff_semantics_cex :
    articlesOf (main_run CUTOFF_DATE oA [] mixedStore) = [artRfc, artIso] ∧
    parse_date_val oA (aget artRfc "published_at") = some dt20010101utc ∧
    parse_date_val oA (aget artIso "published_at") = some dt20251201 ∧
    dtLt (stripTz dt20010101utc) (stripTz dt20251201) = true :=
  ⟨rfl, rfl, rfl, rfl⟩

/-- C7 amended: after a save the collection list is ordered by the raw
published_at string, descending under Python string comparison (stably,
ties keeping their order in the rebuilt collection); this string order
agrees with the parsed-instant semantics of the cutoff only for uniformly
formatted date strings, not in general. -/
theorem run_output_sorted_desc_by_string (cutoff : PyDateTime)
    (o : Oracles) (feeds : List Feed) (data : List (String × JVal))
    (hwf : wfStore data = true) :
    descSorted (articlesOf (main_run cutoff o feeds data)) := by
  rw [articlesOf_main_run]
  exact sortByKeyDesc_sorted _

/-- Witness for C7 amended at a concrete run. -/
theorem run_output_sorted_desc_by_string_instance :
    descSorted (articlesOf (main_run CUTOFF_DATE oA [] mixedStore)) :=
  run_output_sorted_desc_by_string CUTOFF_DATE oA [] mixedStore rfl

/-! ## C1: the cutoff invariant -/

/-- C1: in the document a completed run hands to save_data, every article
has a published_at that parses (with the date semantics of the run) to an
instant that, tzinfo stripped, is not before the configured cutoff;
consequently previously persisted articles whose published_at is
unparseable or falls before a tightened cutoff are removed by the final
filter pass, not merely not re-added. -/
theorem cutoff_invariant_after_run (cutoff : PyDateTime) (o : Oracles)
    (feeds : List Feed) (data : List (String × JVal))
    (hwf : wfStore data = true) (a : JVal)
    (ha : a ∈ articlesOf (main_run cutoff o feeds data)) :
    ∃ pd, parse_date_val o (aget a "published_at") = some pd ∧
      dtLt (stripTz pd) cutoff = false := by
  rw [articlesOf_main_run, mem_sortByKeyDesc] at ha
  have hpass := (List.mem_filter.mp ha).2
  unfold passCutoff at hpass
  cases hp : parse_date_val o (aget a "published_at") with
  | none =>
      rw [hp] at hpass
      cases hpass
  | some pd =>
      rw [hp] at hpass
      refine ⟨pd, rfl, ?_⟩
      simpa using hpass

/-- Witness for C1: a concrete article of a concrete completed run. -/
theorem cutoff_invariant_after_run_instance :
    ∃ pd, parse_date_val oA (aget artIso "published_at") = some pd ∧
      dtLt (stripTz pd) CUTOFF_DATE = false :=
  cutoff_invariant_after_run CUTOFF_DATE oA [] mixedStore rfl artIso
    (by
      show artIso ∈ articlesOf (main_run CUTOFF_DATE oA [] mixedStore)
      have h : articlesOf (main_run CUTOFF_DATE oA [] mixedStore) =
          [artRfc, artIso] := rfl
      rw [h]
      exact List.mem_cons_of_mem _ (List.mem_cons_self _ _))

/-! ## The in-memory dict after ingestion -/

theorem ingest_good (cutoff : PyDateTime) (o : Oracles) (feeds : List Feed)
    (d : IdDict) (h : ∀ kv ∈ d, goodPair kv) :
    ∀ kv ∈ ingest cutoff o feeds d, goodPair kv := by
  rw [ingest_eq]
  exact goodPair_foldl_stepA cutoff o (flatEntries feeds) d h

theorem ingest_nodup (cutoff : PyDateTime) (o : Oracles)
    (feeds : List Feed) (d : IdDict) (h : (keysOf d).Nodup) :
    (keysOf (ingest cutoff o feeds d)).Nodup := by
  rw [ingest_eq]
  exact nodup_foldl_stepA cutoff o (flatEntries feeds) d h

theorem dget_ingest_mono (cutoff : PyDateTime) (o : Oracles)
    (feeds : List Feed) (d : IdDict) (k : String) (v : JVal)
    (h : dget d k = some v) :
    dget (ingest cutoff o feeds d) k = some v := by
  rw [ingest_eq]
  exact dget_foldl_stepA_mono cutoff o (flatEntries feeds) d k v h

theorem values_pairwise_ne_id (d : IdDict) (hg : ∀ kv ∈ d, goodPair kv)
    (hnd : (keysOf d).Nodup) :
    (d.map (fun kv => kv.2)).Pairwise
      (fun a b => aget a "id" ≠ aget b "id") := by
  induction d with
  | nil => simp
  | cons hd t ih =>
      obtain ⟨k, v⟩ := hd
      simp only [keysOf, List.map_cons, List.nodup_cons] at hnd
      rw [List.map_cons, List.pairwise_cons]
      constructor
      · intro w hw
        obtain ⟨⟨k', w'⟩, hmem, hww⟩ := List.mem_map.mp hw
        have hgv : goodPair (k, v) := hg _ (List.mem_cons_self _ _)
        have hgw : goodPair (k', w') := hg _ (List.mem_cons_of_mem _ hmem)
        intro he
        rw [hgv.1, ← hww, hgw.1] at he
        injection he with h2
        injection h2 with h3
        have h4 : k = k' := h3
        refine hnd.1 ?_
        rw [h4]
        exact List.mem_map_of_mem Prod.fst hmem
      · exact ih (fun kv hkv => hg kv (List.mem_cons_of_mem _ hkv)) hnd.2

/-! ## C9: ids in the saved collection -/

/-- C9: every article in the saved collection carries a nonempty string
id, and no two of them have equal id fields; hence a previously persisted
article whose id is missing or empty never reappears in the saved
collection (it is dropped, not repaired). -/
theorem saved_ids_nonempty_unique (cutoff : PyDateTime) (o : Oracles)
    (feeds : List Feed) (data : List (String × JVal))
    (hwf : wfStore data = true) :
    (∀ a ∈ articlesOf (main_run cutoff o feeds data),
      ∃ s, aget a "id" = some (.jstr s) ∧ s ≠ "") ∧
    (articlesOf (main_run cutoff o feeds data)).Pairwise
      (fun a b => aget a "id" ≠ aget b "id") := by
  have hgood : ∀ kv ∈ ingest cutoff o feeds (buildIdDict (articlesOf data)),
      goodPair kv :=
    ingest_good cutoff o feeds _ (buildIdDict_good _)
  have hnd : (keysOf (ingest cutoff o feeds
      (buildIdDict (articlesOf data)))).Nodup :=
    ingest_nodup cutoff o feeds _ (buildIdDict_nodup _)
  constructor
  · intro a ha
    rw [articlesOf_main_run, mem_sortByKeyDesc] at ha
    have hv := (List.mem_filter.mp ha).1
    obtain ⟨kv, hkv, hkv2⟩ := List.mem_map.mp hv
    have hgp := hgood kv hkv
    exact ⟨kv.1, hkv2 ▸ hgp.1, hgp.2⟩
  · rw [articlesOf_main_run]
    have h1 := values_pairwise_ne_id _ hgood hnd
    have h2 := h1.filter (passCutoff cutoff o)
    refine ((sortByKeyDesc_perm _).pairwise_iff ?_).mpr h2
    intro x y h he
    exact h he.symm

/-- Witness for C9 at a concrete run. -/
theorem saved_ids_nonempty_unique_instance :
    (∀ a ∈ articlesOf (main_run CUTOFF_DATE oA [] mixedStore),
      ∃ s, aget a "id" = some (.jstr s) ∧ s ≠ "") ∧
    (articlesOf (main_run CUTOFF_DATE oA [] mixedStore)).Pairwise
      (fun a b => aget a "id" ≠ aget b "id") :=
  saved_ids_nonempty_unique CUTOFF_DATE oA [] mixedStore rfl

/-! ## C8: existing articles are never updated in place -/

theorem buildFold_lookup_of_some (s : String) (a : JVal) :
    ∀ (t : List JVal) (acc : IdDict), dget acc s = some a →
    (∀ b ∈ t, aget b "id" = some (.jstr s) → b = a) →
    dget (t.foldl
      (fun d a =>
        match aget a "id" with
        | some (.jstr u) => if u = "" then d else dset d u a
        | _ => d) acc) s = some a := by
  intro t
  induction t with
  | nil => exact fun acc h _ => h
  | cons b t ih =>
      intro acc hacc huniq
      rw [List.foldl_cons]
      refine ih _ ?_ (fun c hc h => huniq c (List.mem_cons_of_mem _ hc) h)
      rcases buildStep_cases acc b with h1 | ⟨u, hid, hu, h1⟩ <;> rw [h1]
      · exact hacc
      · by_cases he : u = s
        · subst he
          have hb : b = a := huniq b (List.mem_cons_self _ _) hid
          subst hb
          exact dget_dset_self acc u b
        · rw [dget_dset_ne acc u s b he]
          exact hacc

theorem buildIdDict_lookup (l : List JVal) (a : JVal) (s : String)
    (ha : a ∈ l) (hid : aget a "id" = some (.jstr s)) (hs : s ≠ "")
    (huniq : ∀ b ∈ l, aget b "id" = some (.jstr s) → b = a) :
    dget (buildIdDict l) s = some a := by
  suffices h : ∀ (t : List JVal) (acc : IdDict), a ∈ t →
      (∀ b ∈ t, aget b "id" = some (.jstr s) → b = a) →
      dget (t.foldl
        (fun d a =>
          match aget a "id" with
          | some (.jstr u) => if u = "" then d else dset d u a
          | _ => d) acc) s = some a by
    exact h l [] ha huniq
  intro t
  induction t with
  | nil => intro acc h; cases h
  | cons b t ih =>
      intro acc hmem huniq
      rw [List.foldl_cons]
      by_cases hbid : aget b "id" = some (.jstr s)
      · have hb : b = a := huniq b (List.mem_cons_self _ _) hbid
        subst hb
        have hstep : (match aget b "id" with
            | some (.jstr u) => if u = "" then acc else dset acc u b
            | _ => acc) = dset acc s b := by
          simp only [hbid]
          rw [if_neg hs]
        simp only [hstep]
        exact buildFold_lookup_of_some s b t _ (dget_dset_self acc s b)
          (fun c hc h => huniq c (List.mem_cons_of_mem _ hc) h)
      · have hat : a ∈ t := by
          rcases List.mem_cons.mp hmem with h1 | h1
          · exact absurd (h1 ▸ hid) hbid
          · exact h1
        exact ih _ hat (fun c hc h => huniq c (List.mem_cons_of_mem _ hc) h)

/-- C8: an article already present in the store, with a nonempty string
id no other stored article shares, is carried through a later run as the
very same value: it appears in the saved collection exactly when it passes
the cutoff filter, and any saved article carrying its identifier is that
unmodified value (no update in place, no re-enrichment; removal happens
only through the cutoff filter). -/
theorem existing_article_frame (cutoff : PyDateTime) (o : Oracles)
    (feeds : List Feed) (data : List (String × JVal))
    (hwf : wfStore data = true) (a : JVal) (s : String)
    (ha : a ∈ articlesOf data)
    (hid : aget a "id" = some (.jstr s)) (hs : s ≠ "")
    (huniq : ∀ b ∈ articlesOf data, aget b "id" = some (.jstr s) → b = a) :
    (a ∈ articlesOf (main_run cutoff o feeds data) ↔
      passCutoff cutoff o a = true) ∧
    (∀ b ∈ articlesOf (main_run cutoff o feeds data),
      aget b "id" = some (.jstr s) → b = a) := by
  have h0 : dget (buildIdDict (articlesOf data)) s = some a :=
    buildIdDict_lookup _ a s ha hid hs huniq
  have h1 : dget (ingest cutoff o feeds (buildIdDict (articlesOf data)))
      s = some a := dget_ingest_mono cutoff o feeds _ s a h0
  have hgood : ∀ kv ∈ ingest cutoff o feeds (buildIdDict (articlesOf data)),
      goodPair kv :=
    ingest_good cutoff o feeds _ (buildIdDict_good _)
  have hnd : (keysOf (ingest cutoff o feeds
      (buildIdDict (articlesOf data)))).Nodup :=
    ingest_nodup cutoff o feeds _ (buildIdDict_nodup _)
  constructor
  · constructor
    · intro hmem
      rw [articlesOf_main_run, mem_sortByKeyDesc] at hmem
      exact (List.mem_filter.mp hmem).2
    · intro hpass
      rw [articlesOf_main_run, mem_sortByKeyDesc]
      refine List.mem_filter.mpr ⟨?_, hpass⟩
      exact List.mem_map.mpr ⟨(s, a), mem_of_dget _ s a h1, rfl⟩
  · intro b hb hbid
    rw [articlesOf_main_run, mem_sortByKeyDesc] at hb
    have hv := (List.mem_filter.mp hb).1
    obtain ⟨⟨k', b'⟩, hkv, hbb⟩ := List.mem_map.mp hv
    have hgp := hgood _ hkv
    have hbb' : b' = b := hbb
    have hks : k' = s := by
      have h2 : aget b' "id" = some (.jstr k') := hgp.1
      rw [hbb', hbid] at h2
      injection h2 with h3
      injection h3 with h4
      exact h4.symm
    subst hks
    have h5 : dget (ingest cutoff o feeds (buildIdDict (articlesOf data)))
        k' = some b' := dget_of_mem_nodup _ k' b' hnd hkv
    rw [h1] at h5
    injection h5 with h6
    exact (h6.trans hbb').symm

/-- Witness for C8: the concrete stored ISO-dated article is preserved
verbatim by a run. -/
theorem existing_article_frame_instance :
    (artIso ∈ articlesOf (main_run CUTOFF_DATE oA [] mixedStore) ↔
      passCutoff CUTOFF_DATE oA artIso = true) ∧
    (∀ b ∈ articlesOf (main_run CUTOFF_DATE oA [] mixedStore),
      aget b "id" = some (.jstr "b") → b = artIso) := by
  refine existing_article_frame CUTOFF_DATE oA [] mixedStore rfl artIso "b"
    ?_ rfl (by decide) ?_
  · show artIso ∈ [artRfc, artIso]
    exact List.mem_cons_of_mem _ (List.mem_cons_self _ _)
  · intro b hb hbid
    have hb' : b ∈ [artRfc, artIso] := hb
    rcases List.mem_cons.mp hb' with h1 | h1
    · subst h1
      have h2 : some (JVal.jstr "a") = some (JVal.jstr "b") := hbid
      injection h2 with h3
      injection h3 with h4
      exact absurd h4 (by decide)
    · simpa using h1

/-! ## C2: idempotence machinery -/

theorem stepA_of_attempt_none (cutoff : PyDateTime) (o : Oracles)
    (d : IdDict) (fe : String × Entry)
    (h : attempt cutoff o fe.1 fe.2 = none) :
    stepA cutoff o d fe = d := by
  unfold stepA
  rw [h]

theorem stepA_of_attempt_some (cutoff : PyDateTime) (o : Oracles)
    (d : IdDict) (fe : String × Entry) (k : String) (a : JVal)
    (h : attempt cutoff o fe.1 fe.2 = some (k, a)) :
    stepA cutoff o d fe = if hasKey d k then d else d ++ [(k, a)] := by
  unfold stepA
  rw [h]

theorem dget_append_singleton_ne (d : IdDict) (k0 k : String) (a : JVal)
    (h : k0 ≠ k) : dget (d ++ [(k0, a)]) k = dget d k := by
  rw [dget_append]
  cases hg : dget d k with
  | some v => rfl
  | none => simp [dget, h]

theorem dget_append_singleton_self (d : IdDict) (k0 : String) (a : JVal)
    (h : dget d k0 = none) : dget (d ++ [(k0, a)]) k0 = some a := by
  rw [dget_append, h]
  simp [dget]

theorem hasKey_append_singleton_ne (d : IdDict) (k0 k : String) (a : JVal)
    (h : k0 ≠ k) : hasKey (d ++ [(k0, a)]) k = hasKey d k := by
  unfold hasKey
  rw [dget_append_singleton_ne d k0 k a h]

/-- The key simulation step: running the ingestion from a second-run dict
whose keys are exactly the surviving first-run keys plus the first-run
merges that fail the filter reproduces the first-run merges that fail the
filter, and nothing else. -/
theorem run2_fold (cutoff : PyDateTime) (o : Oracles) (D1 : IdDict) :
    ∀ (L : List (String × Entry)) (D D' : IdDict),
    L.foldl (stepA cutoff o) D = D1 →
    (∀ k : String, hasKey D' k = true ↔
      ((∃ v, dget D1 k = some v ∧ passCutoff cutoff o v = true) ∨
       (∃ v, dget D k = some v ∧ passCutoff cutoff o v = false))) →
    L.foldl (stepA cutoff o) D' =
      D' ++ (D1.drop D.length).filter
        (fun kv => !passCutoff cutoff o kv.2) := by
  intro L
  induction L with
  | nil =>
      intro D D' hD1 hinv
      subst hD1
      simp [List.drop_length]
  | cons fe L ih =>
      intro D D' hD1 hinv
      rw [List.foldl_cons] at hD1 ⊢
      cases hat : attempt cutoff o fe.1 fe.2 with
      | none =>
          rw [stepA_of_attempt_none cutoff o D fe hat] at hD1
          rw [stepA_of_attempt_none cutoff o D' fe hat]
          exact ih D D' hD1 hinv
      | some ka =>
          obtain ⟨k0, a⟩ := ka
          rw [stepA_of_attempt_some cutoff o D fe k0 a hat] at hD1
          rw [stepA_of_attempt_some cutoff o D' fe k0 a hat]
          by_cases hk : hasKey D k0 = true
          · rw [if_pos hk] at hD1
            obtain ⟨v, hv⟩ := (hasKey_true_iff D k0).mp hk
            have hv1 : dget D1 k0 = some v := by
              rw [← hD1]
              exact dget_foldl_stepA_mono cutoff o L D k0 v hv
            have hk' : hasKey D' k0 = true := by
              cases hpass : passCutoff cutoff o v with
              | true => exact (hinv k0).mpr (Or.inl ⟨v, hv1, hpass⟩)
              | false => exact (hinv k0).mpr (Or.inr ⟨v, hv, hpass⟩)
            rw [if_pos hk']
            exact ih D D' hD1 hinv
          · have hkf : hasKey D k0 = false := by
              cases hcc : hasKey D k0 with
              | false => rfl
              | true => exact absurd hcc hk
            have hdn : dget D k0 = none := (hasKey_false_iff D k0).mp hkf
            rw [if_neg hk] at hD1
            have hget : dget (D ++ [(k0, a)]) k0 = some a :=
              dget_append_singleton_self D k0 a hdn
            have ha1 : dget D1 k0 = some a := by
              rw [← hD1]
              exact dget_foldl_stepA_mono cutoff o L (D ++ [(k0, a)]) k0 a hget
            obtain ⟨m, hm⟩ := foldl_stepA_append cutoff o L (D ++ [(k0, a)])
            have hD1m : D1 = D ++ ((k0, a) :: m) := by
              rw [← hD1, hm, List.append_assoc, List.singleton_append]
            have hdropD : D1.drop D.length = (k0, a) :: m := by
              rw [hD1m]
              exact List.drop_left D _
            have hdropD1 : D1.drop (D ++ [(k0, a)]).length = m := by
              rw [← hD1, hm]
              exact List.drop_left _ _
            cases hpass : passCutoff cutoff o a with
            | true =>
                have hk' : hasKey D' k0 = true :=
                  (hinv k0).mpr (Or.inl ⟨a, ha1, hpass⟩)
                rw [if_pos hk']
                have hinv' : ∀ k : String, hasKey D' k = true ↔
                    ((∃ v, dget D1 k = some v ∧
                      passCutoff cutoff o v = true) ∨
                     (∃ v, dget (D ++ [(k0, a)]) k = some v ∧
                      passCutoff cutoff o v = false)) := by
                  intro k
                  rw [hinv k]
                  by_cases hkk : k0 = k
                  · subst hkk
                    constructor
                    · rintro (h1 | ⟨v, hv2, _⟩)
                      · exact Or.inl h1
                      · rw [hdn] at hv2
                        cases hv2
                    · rintro (h1 | ⟨v, hv2, hvp⟩)
                      · exact Or.inl h1
                      · rw [hget] at hv2
                        injection hv2 with hva
                        rw [hva] at hpass
                        rw [hpass] at hvp
                        cases hvp
                  · rw [dget_append_singleton_ne D k0 k a hkk]
                have hrest := ih (D ++ [(k0, a)]) D' hD1 hinv'
                rw [hrest, hdropD, hdropD1]
                have hfa : (!passCutoff cutoff o a) = false := by
                  rw [hpass]
                  rfl
                rw [List.filter_cons]
                simp [hfa]
            | false =>
                have hk' : hasKey D' k0 = false := by
                  cases hcc : hasKey D' k0 with
                  | false => rfl
                  | true =>
                      rcases (hinv k0).mp hcc with ⟨v, hv2, hvp⟩ | ⟨v, hv2, hvp⟩
                      · rw [ha1] at hv2
                        injection hv2 with hva
                        rw [hva] at hpass
                        rw [hpass] at hvp
                        cases hvp
                      · rw [hdn] at hv2
                        cases hv2
                have hknot : ¬ (hasKey D' k0 = true) := by
                  rw [hk']
                  exact fun h => nomatch h
                rw [if_neg hknot]
                have hdn' : dget D' k0 = none := (hasKey_false_iff D' k0).mp hk'
                have hinv'' : ∀ k : String, hasKey (D' ++ [(k0, a)]) k = true ↔
                    ((∃ v, dget D1 k = some v ∧
                      passCutoff cutoff o v = true) ∨
                     (∃ v, dget (D ++ [(k0, a)]) k = some v ∧
                      passCutoff cutoff o v = false)) := by
                  intro k
                  by_cases hkk : k0 = k
                  · subst hkk
                    constructor
                    · intro _
                      exact Or.inr ⟨a, hget, hpass⟩
                    · intro _
                      rw [hasKey_true_iff]
                      exact ⟨a, dget_append_singleton_self D' k0 a hdn'⟩
                  · rw [hasKey_append_singleton_ne D' k0 k a hkk,
                      dget_append_singleton_ne D k0 k a hkk]
                    exact hinv k
                have hrest := ih (D ++ [(k0, a)]) (D' ++ [(k0, a)]) hD1 hinv''
                rw [hrest, hdropD, hdropD1]
                have hfa : (!passCutoff cutoff o a) = true := by
                  rw [hpass]
                  rfl
                rw [List.filter_cons]
                simp only [hfa, if_true]
                rw [List.append_assoc, List.singleton_append]

theorem idStr_of_good (k : String) (v : JVal) (h : goodPair (k, v)) :
    idStr v = k := by
  have h1 : aget v "id" = some (.jstr k) := h.1
  unfold idStr
  rw [h1]

theorem hasKey_dset_mono (d : IdDict) (k : String) (v : JVal) (s : String)
    (h : hasKey d s = true) : hasKey (dset d k v) s = true := by
  obtain ⟨w, hw⟩ := (hasKey_true_iff d s).mp h
  by_cases hks : k = s
  · subst hks
    exact (hasKey_true_iff _ _).mpr ⟨v, dget_dset_self d k v⟩
  · refine (hasKey_true_iff _ _).mpr ⟨w, ?_⟩
    rw [dget_dset_ne d k s v hks]
    exact hw

theorem buildFold_hasKey_mono (s : String) :
    ∀ (t : List JVal) (acc : IdDict), hasKey acc s = true →
    hasKey (t.foldl
      (fun d a =>
        match aget a "id" with
        | some (.jstr u) => if u = "" then d else dset d u a
        | _ => d) acc) s = true := by
  intro t
  induction t with
  | nil => exact fun acc h => h
  | cons b t ih =>
      intro acc hacc
      rw [List.foldl_cons]
      refine ih _ ?_
      rcases buildStep_cases acc b with h1 | ⟨u, _, _, h1⟩ <;> rw [h1]
      · exact hacc
      · exact hasKey_dset_mono acc u b s hacc

theorem hasKey_buildIdDict_of_mem (l : List JVal) (a : JVal) (s : String)
    (ha : a ∈ l) (hid : aget a "id" = some (.jstr s)) (hs : s ≠ "") :
    hasKey (buildIdDict l) s = true := by
  suffices h : ∀ (t : List JVal) (acc : IdDict), a ∈ t →
      hasKey (t.foldl
        (fun d a =>
          match aget a "id" with
          | some (.jstr u) => if u = "" then d else dset d u a
          | _ => d) acc) s = true by
    exact h l [] ha
  intro t
  induction t with
  | nil => intro acc h; cases h
  | cons b t ih =>
      intro acc hmem
      rw [List.foldl_cons]
      rcases List.mem_cons.mp hmem with h1 | h1
      · subst h1
        have hstep : (match aget a "id" with
            | some (.jstr u) => if u = "" then acc else dset acc u a
            | _ => acc) = dset acc s a := by
          simp only [hid]
          rw [if_neg hs]
        simp only [hstep]
        refine buildFold_hasKey_mono s t _ ?_
        exact (hasKey_true_iff _ _).mpr ⟨a, dget_dset_self acc s a⟩
      · exact ih _ h1

theorem buildFold_eq_map :
    ∀ (t : List JVal) (acc : IdDict),
    (∀ b ∈ t, aget b "id" = some (.jstr (idStr b)) ∧ idStr b ≠ "") →
    (∀ b ∈ t, idStr b ∉ keysOf acc) →
    (t.map idStr).Nodup →
    t.foldl
      (fun d a =>
        match aget a "id" with
        | some (.jstr u) => if u = "" then d else dset d u a
        | _ => d) acc = acc ++ t.map (fun b => (idStr b, b)) := by
  intro t
  induction t with
  | nil => intro acc _ _ _; simp
  | cons b t ih =>
      intro acc hg hfresh hnd
      have hb := hg b (List.mem_cons_self _ _)
      rw [List.foldl_cons]
      have hstep : (match aget b "id" with
          | some (.jstr u) => if u = "" then acc else dset acc u b
          | _ => acc) = dset acc (idStr b) b := by
        simp only [hb.1]
        rw [if_neg hb.2]
      simp only [hstep]
      have hdn : dget acc (idStr b) = none :=
        (dget_none_iff acc (idStr b)).mpr (hfresh b (List.mem_cons_self _ _))
      rw [dset_eq_append acc (idStr b) b hdn]
      rw [List.map_cons] at hnd
      have hnd2 := List.nodup_cons.mp hnd
      have hih := ih (acc ++ [(idStr b, b)])
        (fun c hc => hg c (List.mem_cons_of_mem _ hc))
        (fun c hc => by
          simp only [keysOf, List.map_append, List.map_cons, List.map_nil,
            List.mem_append, List.mem_cons, List.not_mem_nil]
          rintro (h1 | h1)
          · exact hfresh c (List.mem_cons_of_mem _ hc) (by simpa [keysOf] using h1)
          · rcases h1 with h2 | h2
            · exact hnd2.1 (h2 ▸ List.mem_map_of_mem idStr hc)
            · exact h2)
        hnd2.2
      rw [hih, List.map_cons, List.append_assoc, List.singleton_append]

theorem buildIdDict_eq_map (l : List JVal)
    (hg : ∀ b ∈ l, aget b "id" = some (.jstr (idStr b)) ∧ idStr b ≠ "")
    (hnd : (l.map idStr).Nodup) :
    buildIdDict l = l.map (fun b => (idStr b, b)) :=
  buildFold_eq_map l [] hg (by simp [keysOf]) hnd

/-- main_run written out. -/
theorem main_run_eq (cutoff : PyDateTime) (o : Oracles) (feeds : List Feed)
    (data : List (String × JVal)) :
    main_run cutoff o feeds data = dset data "articles"
      (.jarr (sortByKeyDesc
        (((ingest cutoff o feeds (buildIdDict (articlesOf data))).map
          (fun kv => kv.2)).filter (passCutoff cutoff o)))) := rfl

set_option maxRecDepth 16000 in
/-- Counterexample to C2 as stated: over fixed feed content and fixed
external-service behaviour, a store holding a below-cutoff article that
carries the identifier of a current feed entry makes the first run skip
that entry (already tracked) and then drop the stale article, producing an
empty list; the second run, over the saved output, no longer finds the
identifier and adds the entry, so the collection after the second run
differs from the one after the first. -/
theorem second_run_differs_cex :
    main_run CUTOFF_DATE oA [feedA]
        (main_run CUTOFF_DATE oA [feedA] staleStore) ≠
      main_run CUTOFF_DATE oA [feedA] staleStore := by
  intro h
  have h2 := congrArg (fun d => (articlesOf d).length) h
  have e1 : (articlesOf (main_run CUTOFF_DATE oA [feedA]
      (main_run CUTOFF_DATE oA [feedA] staleStore))).length = 1 := by decide
  have e2 : (articlesOf (main_run CUTOFF_DATE oA [feedA]
      staleStore)).length = 0 := by decide
  simp only at h2
  rw [e1, e2] at h2
  cases h2

/-- C2 amended: the merge pipeline is idempotent on stores whose articles
all pass the current cutoff filter (in particular on any store a run with
the same configuration produced): a second run over the output of the first run
yields the identical document.  Without that proviso a stale below-cutoff
stored article can mask a current feed entry during the first run and the
second run then adds it (see the counterexample). -/
theorem run_idempotent_on_fresh_store (cutoff : PyDateTime) (o : Oracles)
    (feeds : List Feed) (data : List (String × JVal))
    (hwf : wfStore data = true)
    (hfresh : ∀ a ∈ articlesOf data, ∀ s, aget a "id" = some (.jstr s) →
      s ≠ "" → passCutoff cutoff o a = true) :
    main_run cutoff o feeds (main_run cutoff o feeds data) =
      main_run cutoff o feeds data := by
  have hgood1 : ∀ kv ∈ ingest cutoff o feeds
      (buildIdDict (articlesOf data)), goodPair kv :=
    ingest_good cutoff o feeds _ (buildIdDict_good _)
  have hnd1 : (keysOf (ingest cutoff o feeds
      (buildIdDict (articlesOf data)))).Nodup :=
    ingest_nodup cutoff o feeds _ (buildIdDict_nodup _)
  -- facts about the saved list S1
  have hS1pass : ∀ b ∈ sortByKeyDesc
      (((ingest cutoff o feeds (buildIdDict (articlesOf data))).map
        (fun kv => kv.2)).filter (passCutoff cutoff o)),
      passCutoff cutoff o b = true := by
    intro b hb
    rw [mem_sortByKeyDesc] at hb
    exact (List.mem_filter.mp hb).2
  have hS1good : ∀ b ∈ sortByKeyDesc
      (((ingest cutoff o feeds (buildIdDict (articlesOf data))).map
        (fun kv => kv.2)).filter (passCutoff cutoff o)),
      aget b "id" = some (.jstr (idStr b)) ∧ idStr b ≠ "" := by
    intro b hb
    rw [mem_sortByKeyDesc] at hb
    obtain ⟨⟨k, v⟩, hkv, hveq⟩ := List.mem_map.mp (List.mem_filter.mp hb).1
    have hveq' : v = b := hveq
    subst hveq'
    have hgp := hgood1 _ hkv
    have hik : idStr v = k := idStr_of_good k v hgp
    rw [hik]
    exact ⟨hgp.1, hik ▸ hgp.2⟩
  have hmapid : ((ingest cutoff o feeds
      (buildIdDict (articlesOf data))).map (fun kv => kv.2)).map idStr =
      keysOf (ingest cutoff o feeds (buildIdDict (articlesOf data))) := by
    rw [List.map_map]
    refine List.map_congr_left ?_
    intro kv hkv
    exact idStr_of_good kv.1 kv.2 (by
      have := hgood1 kv hkv
      exact this)
  have hndS1 : ((sortByKeyDesc
      (((ingest cutoff o feeds (buildIdDict (articlesOf data))).map
        (fun kv => kv.2)).filter (passCutoff cutoff o))).map idStr).Nodup := by
    have h1 : (((ingest cutoff o feeds (buildIdDict (articlesOf data))).map
        (fun kv => kv.2)).map idStr).Nodup := by
      rw [hmapid]
      exact hnd1
    have h2 := (List.filter_sublist (p := passCutoff cutoff o)
      (l := (ingest cutoff o feeds (buildIdDict (articlesOf data))).map
        (fun kv => kv.2))).map idStr
    have h3 := h1.sublist h2
    exact ((sortByKeyDesc_perm _).map idStr).nodup_iff.mpr h3
  have hD0'values : (buildIdDict (sortByKeyDesc
      (((ingest cutoff o feeds (buildIdDict (articlesOf data))).map
        (fun kv => kv.2)).filter (passCutoff cutoff o)))).map
      (fun kv => kv.2) = sortByKeyDesc
      (((ingest cutoff o feeds (buildIdDict (articlesOf data))).map
        (fun kv => kv.2)).filter (passCutoff cutoff o)) := by
    rw [buildIdDict_eq_map _ hS1good hndS1, List.map_map]
    refine (List.map_congr_left ?_).trans (List.map_id _)
    intro b _
    rfl
  -- the base invariant relating the second-run start dict to the first run
  have hbase : ∀ k : String, hasKey (buildIdDict (sortByKeyDesc
      (((ingest cutoff o feeds (buildIdDict (articlesOf data))).map
        (fun kv => kv.2)).filter (passCutoff cutoff o)))) k = true ↔
      ((∃ v, dget (ingest cutoff o feeds (buildIdDict (articlesOf data)))
        k = some v ∧ passCutoff cutoff o v = true) ∨
       (∃ v, dget (buildIdDict (articlesOf data)) k = some v ∧
        passCutoff cutoff o v = false)) := by
    intro k
    constructor
    · intro hk
      obtain ⟨v, hv⟩ := (hasKey_true_iff _ _).mp hk
      have hmemD0' := mem_of_dget _ _ _ hv
      have hgp := buildIdDict_good _ _ hmemD0'
      have hvS1 := buildIdDict_values_sub _ _ hmemD0'
      rw [mem_sortByKeyDesc] at hvS1
      have hf := List.mem_filter.mp hvS1
      obtain ⟨⟨k2, v2⟩, hkv2, hveq⟩ := List.mem_map.mp hf.1
      have hveq' : v2 = v := hveq
      subst hveq'
      have hgp2 := hgood1 _ hkv2
      have hkk : k2 = k := by
        have e1 : aget v2 "id" = some (.jstr k2) := hgp2.1
        have e2 : aget v2 "id" = some (.jstr k) := hgp.1
        have e3 := e1.symm.trans e2
        simpa using e3
      subst hkk
      exact Or.inl ⟨v2, dget_of_mem_nodup _ _ _ hnd1 hkv2, hf.2⟩
    · rintro (⟨v, hv, hp⟩ | ⟨v, hv, hp⟩)
      · have hmem1 := mem_of_dget _ _ _ hv
        have hgp := hgood1 _ hmem1
        have hvmem : v ∈ (ingest cutoff o feeds
            (buildIdDict (articlesOf data))).map (fun kv => kv.2) :=
          List.mem_map.mpr ⟨(k, v), hmem1, rfl⟩
        have hvS1 : v ∈ sortByKeyDesc
            (((ingest cutoff o feeds (buildIdDict (articlesOf data))).map
              (fun kv => kv.2)).filter (passCutoff cutoff o)) := by
          rw [mem_sortByKeyDesc]
          exact List.mem_filter.mpr ⟨hvmem, hp⟩
        exact hasKey_buildIdDict_of_mem _ v k hvS1 hgp.1 hgp.2
      · have hmem0 := mem_of_dget _ _ _ hv
        have hgp := buildIdDict_good _ _ hmem0
        have hvE := buildIdDict_values_sub _ _ hmem0
        have hpa := hfresh v hvE k hgp.1 hgp.2
        rw [hpa] at hp
        cases hp
  -- the second-run dict
  have hrun2 : ingest cutoff o feeds (buildIdDict (sortByKeyDesc
      (((ingest cutoff o feeds (buildIdDict (articlesOf data))).map
        (fun kv => kv.2)).filter (passCutoff cutoff o)))) =
      buildIdDict (sortByKeyDesc
        (((ingest cutoff o feeds (buildIdDict (articlesOf data))).map
          (fun kv => kv.2)).filter (passCutoff cutoff o))) ++
      ((ingest cutoff o feeds (buildIdDict (articlesOf data))).drop
        (buildIdDict (articlesOf data)).length).filter
        (fun kv => !passCutoff cutoff o kv.2) := by
    rw [ingest_eq]
    exact run2_fold cutoff o _ (flatEntries feeds) _ _
      (ingest_eq cutoff o feeds _).symm hbase
  -- assembly
  rw [main_run_eq cutoff o feeds data]
  rw [main_run_eq cutoff o feeds _]
  have hart : articlesOf (dset data "articles" (.jarr (sortByKeyDesc
      (((ingest cutoff o feeds (buildIdDict (articlesOf data))).map
        (fun kv => kv.2)).filter (passCutoff cutoff o))))) =
      sortByKeyDesc
        (((ingest cutoff o feeds (buildIdDict (articlesOf data))).map
          (fun kv => kv.2)).filter (passCutoff cutoff o)) := by
    unfold articlesOf
    rw [dget_dset_self]
  rw [hart, hrun2, List.map_append, List.filter_append, hD0'values]
  have hfS1 : (sortByKeyDesc
      (((ingest cutoff o feeds (buildIdDict (articlesOf data))).map
        (fun kv => kv.2)).filter (passCutoff cutoff o))).filter
      (passCutoff cutoff o) = sortByKeyDesc
      (((ingest cutoff o feeds (buildIdDict (articlesOf data))).map
        (fun kv => kv.2)).filter (passCutoff cutoff o)) :=
    List.filter_eq_self.mpr hS1pass
  have hgarbage : ((((ingest cutoff o feeds
      (buildIdDict (articlesOf data))).drop
      (buildIdDict (articlesOf data)).length).filter
      (fun kv => !passCutoff cutoff o kv.2)).map (fun kv => kv.2)).filter
      (passCutoff cutoff o) = [] := by
    rw [List.filter_eq_nil_iff]
    intro b hb
    obtain ⟨kv, hkv, hveq⟩ := List.mem_map.mp hb
    have h2 := (List.mem_filter.mp hkv).2
    rw [hveq] at h2
    simp only [Bool.not_eq_true'] at h2
    rw [h2]
    exact fun h => nomatch h
  rw [hfS1, hgarbage, List.append_nil]
  rw [sortByKeyDesc_of_sorted _ (sortByKeyDesc_sorted _)]
  exact dset_dset_self data "articles" _ _

/-- Witness for C2 amended: running twice from the empty store with the
concrete feed yields the same document. -/
theorem run_idempotent_on_fresh_store_instance :
    main_run CUTOFF_DATE oA [feedA]
        (main_run CUTOFF_DATE oA [feedA] emptyStore) =
      main_run CUTOFF_DATE oA [feedA] emptyStore :=
  run_idempotent_on_fresh_store CUTOFF_DATE oA [feedA] emptyStore rfl
    (by
      intro a ha
      have ha' : a ∈ ([] : List JVal) := ha
      cases ha')

end FetchUpdate
